import Mathlib

set_option maxRecDepth 100000

/-! Verification development for the Auroville event-discovery assistant.

The definitions below are a shallow embedding of the post-retrieval event
pipeline of `auroville_agent.py` (time parsing, past-event filtering,
deduplication, classification, grouping, rendering, and the
`EVENT_DATA_STORE` reference cache) together with the direct-command
routing of `app.py`.

Modeling conventions, stated once:
* Python `str` is modeled by Lean `String`; record metadata dictionaries
  are modeled as a structure of string fields where a missing key is the
  empty string (the source only ever distinguishes truthy from falsy
  values of these fields).
* `str.strip`, `str.lower`, `str.upper`, `str.isdigit` and the regex
  character classes `\d`, `\s`, `\w` are modeled over their ASCII
  meanings, which covers every character the source actually tests.
* A Python exception is modeled by `Option.none`; in particular
  `datetime.time(h, m)` is the partial constructor `mkTime`.
* Python's stable `list.sort`/`sorted` is modeled by insertion sort,
  which computes the same (unique) stable sorting permutation.
-/

/-- ASCII whitespace, as stripped by `str.strip()` and matched by `\s`. -/
def isSpaceChar (c : Char) : Bool :=
  c = ' ' || c = '\t' || c = '\n' || c = '\r' || c = '\x0b' || c = '\x0c'

/-- `str.strip()` on a character list. -/
def pyStripList (l : List Char) : List Char :=
  ((l.dropWhile isSpaceChar).reverse.dropWhile isSpaceChar).reverse

/-- `str.strip()`. -/
def pyStrip (s : String) : String := String.mk (pyStripList s.data)

/-- ASCII lower-casing of one character, as in `str.lower()`. -/
def lowerChar (c : Char) : Char :=
  if 65 ≤ c.toNat && c.toNat ≤ 90 then Char.ofNat (c.toNat + 32) else c

/-- ASCII upper-casing of one character, as in `str.upper()`. -/
def upperChar (c : Char) : Char :=
  if 97 ≤ c.toNat && c.toNat ≤ 122 then Char.ofNat (c.toNat - 32) else c

/-- `str.lower()`. -/
def pyLower (s : String) : String := String.mk (s.data.map lowerChar)

/-- `''.join(filter(str.isdigit, s))`: keep only digit characters. -/
def digitsOnly (s : String) : String := String.mk (s.data.filter Char.isDigit)

/-- Does `needle` occur as a prefix of `hay`? -/
def startsWithL : List Char → List Char → Bool
  | [], _ => true
  | _ :: _, [] => false
  | a :: as, b :: bs => a = b && startsWithL as bs

/-- Python substring test `needle in hay`. -/
def infixOfL (needle : List Char) : List Char → Bool
  | [] => startsWithL needle []
  | c :: rest => startsWithL needle (c :: rest) || infixOfL needle rest

/-- Python substring test on strings. -/
def strContains (hay needle : String) : Bool := infixOfL needle.data hay.data

/-- `datetime.time` value (hour, minute, second). -/
structure PyTime where
  hour : Nat
  minute : Nat
  second : Nat
deriving DecidableEq, Repr

/-- The sentinel maximal time `time(23, 59, 59)` used for unparseable times. -/
def PyTime.sentinel : PyTime := ⟨23, 59, 59⟩

/-- Python `time.__lt__`: lexicographic on (hour, minute, second). -/
def PyTime.ltB (a b : PyTime) : Bool :=
  a.hour < b.hour ||
    (a.hour = b.hour &&
      (a.minute < b.minute || (a.minute = b.minute && a.second < b.second)))

/-- Non-strict comparison of times, `¬ (b < a)`. -/
def PyTime.leB (a b : PyTime) : Bool := !(PyTime.ltB b a)

/-- The `datetime.time(h, m)` constructor; `none` models the `ValueError`
raised on an out-of-range argument. -/
def mkTime (h m : Nat) : Option PyTime :=
  if h ≤ 23 && m ≤ 59 then some ⟨h, m, 0⟩ else none

/-- Numeric value of an ASCII digit character. -/
def digitVal (c : Char) : Nat := c.toNat - 48

/-- AM / PM marker. -/
inductive Meridian
  | am
  | pm
deriving DecidableEq, Repr

/-- Replace the unicode dashes `—` and `–` by `-`, as the two
`str.replace` calls at the head of `parse_time_for_sort` do. -/
def replDash (c : Char) : Char := if c = '—' || c = '–' then '-' else c

/-- A regex word character (`\w`), ASCII reading. -/
def wordChar (c : Char) : Bool := c.isAlpha || c.isDigit || c = '_'

/-- A `\b` word boundary holds before the current position given the
previous character (`none` at the start of the string). -/
def boundaryOK : Option Char → Bool
  | none => true
  | some c => !wordChar c

/-- A `\b` word boundary holds after a match given the remaining suffix. -/
def boundaryAfter : List Char → Bool
  | [] => true
  | c :: _ => !wordChar c

/-- Literal match of `ANYTIME` at the head of the list. -/
def matchANYTIME : List Char → Option (List Char)
  | 'A' :: 'N' :: 'Y' :: 'T' :: 'I' :: 'M' :: 'E' :: r => some r
  | _ => none

/-- `re.search(r'\bANYTIME\b', s)`, scanning with the previous character. -/
def searchANYTIME : Option Char → List Char → Bool
  | _, [] => false
  | prev, c :: cs =>
    (boundaryOK prev &&
      (match matchANYTIME (c :: cs) with
       | some r => boundaryAfter r
       | none => false)) ||
    searchANYTIME (some c) cs

/-- Literal match of `AM` or `PM` at the head of the list (the `(AM|PM)?`
group of the token regex: no trailing word-boundary requirement). -/
def takeMer (l : List Char) : Option (Meridian × List Char) :=
  match l with
  | c1 :: c2 :: r =>
    if c1 = 'A' ∧ c2 = 'M' then some (Meridian.am, r)
    else if c1 = 'P' ∧ c2 = 'M' then some (Meridian.pm, r)
    else none
  | _ => none

theorem takeMer_length {l : List Char} {p : Meridian × List Char}
    (h : takeMer l = some p) : p.2.length ≤ l.length := by
  match l with
  | [] => simp [takeMer] at h
  | [c] => simp [takeMer] at h
  | c1 :: c2 :: r =>
    simp only [takeMer] at h
    split at h
    · cases h; simp only [List.length_cons]; omega
    · split at h
      · cases h; simp only [List.length_cons]; omega
      · cases h

/-- The leading `(\d{1,2})` of the token regex: greedy one-or-two digit
hour, given that the first character is a digit. -/
def takeHour (c1 : Char) : List Char → Nat × List Char
  | c2 :: cs2 =>
    if c2.isDigit then (digitVal c1 * 10 + digitVal c2, cs2)
    else (digitVal c1, c2 :: cs2)
  | [] => (digitVal c1, [])

theorem takeHour_length (c1 : Char) (l : List Char) :
    (takeHour c1 l).2.length ≤ l.length := by
  match l with
  | [] => simp [takeHour]
  | c2 :: cs2 =>
    by_cases h : c2.isDigit <;> simp [takeHour, h]

/-- The `(?::(\d{2}))?` group: a colon followed by exactly two digits,
or nothing. -/
def takeMinute (l : List Char) : Option Nat × List Char :=
  match l with
  | ':' :: d1 :: d2 :: rr =>
    if d1.isDigit && d2.isDigit then (some (digitVal d1 * 10 + digitVal d2), rr)
    else (none, ':' :: d1 :: d2 :: rr)
  | _ => (none, l)

theorem takeMinute_length (l : List Char) :
    (takeMinute l).2.length ≤ l.length := by
  unfold takeMinute
  split
  · split
    · simp only [List.length_cons]; omega
    · simp
  · simp

theorem dropWhile_length (p : Char → Bool) (l : List Char) :
    (l.dropWhile p).length ≤ l.length :=
  (List.dropWhile_sublist p : (List.dropWhile p l).Sublist l).length_le

/-- One match of the token regex `(\d{1,2})(?::(\d{2}))?\s*(AM|PM)?`:
hour value, optional minute value, optional attached meridian, and the
suffix after the match end (trailing `\s*` consumed, as `Match.end()`
reports). -/
structure TimeTok where
  hour : Nat
  minute : Option Nat
  mer : Option Meridian
  after : List Char
deriving Repr

/-- Try to match the token regex at the current position. -/
def takeTok : List Char → Option TimeTok
  | [] => none
  | c1 :: cs =>
    if c1.isDigit then
      let hr := takeHour c1 cs
      let mr := takeMinute hr.2
      let r3 := mr.2.dropWhile isSpaceChar
      match takeMer r3 with
      | some p => some ⟨hr.1, mr.1, some p.1, p.2⟩
      | none => some ⟨hr.1, mr.1, none, r3⟩
    else none

theorem takeTok_after_length {l : List Char} {t : TimeTok}
    (h : takeTok l = some t) : t.after.length < l.length := by
  match l with
  | [] => simp [takeTok] at h
  | c1 :: cs =>
    simp only [takeTok] at h
    by_cases hd : c1.isDigit
    · simp only [hd, if_true] at h
      have h1 : (takeHour c1 cs).2.length ≤ cs.length := takeHour_length c1 cs
      have h2 : (takeMinute (takeHour c1 cs).2).2.length ≤ (takeHour c1 cs).2.length :=
        takeMinute_length _
      have h3 : ((takeMinute (takeHour c1 cs).2).2.dropWhile isSpaceChar).length ≤
          (takeMinute (takeHour c1 cs).2).2.length := dropWhile_length _ _
      rcases hm : takeMer ((takeMinute (takeHour c1 cs).2).2.dropWhile isSpaceChar) with _ | p
      · rw [hm] at h
        cases h
        simp only [List.length_cons]
        omega
      · rw [hm] at h
        cases h
        have h4 := takeMer_length hm
        simp only [List.length_cons]
        omega
    · simp [hd] at h

theorem takeTok_none_of_not_digit {c : Char} {cs : List Char}
    (hd : c.isDigit = false) : takeTok (c :: cs) = none := by
  simp [takeTok, hd]

theorem takeTok_isSome_of_digit {c : Char} {cs : List Char}
    (hd : c.isDigit = true) : (takeTok (c :: cs)).isSome := by
  simp only [takeTok, hd, if_true]
  rcases takeMer ((takeMinute (takeHour c cs).2).2.dropWhile isSpaceChar) with _ | p <;> simp

/-- Fuel-driven scanner for `finditer`: structural recursion on the fuel,
which the wrapper `scanToks` instantiates with the list length (each step
consumes at least one character, so that fuel is always sufficient). -/
def scanToksF : Nat → List Char → List TimeTok
  | 0, _ => []
  | _ + 1, [] => []
  | n + 1, c :: cs =>
    match takeTok (c :: cs) with
    | some t => t :: scanToksF n t.after
    | none => scanToksF n cs

/-- `token_pattern.finditer(s)`: all non-overlapping, leftmost matches of
the token regex. -/
def scanToks (l : List Char) : List TimeTok := scanToksF l.length l

theorem scanToksF_fuel {n m : Nat} {l : List Char}
    (hn : l.length ≤ n) (hm : l.length ≤ m) : scanToksF n l = scanToksF m l := by
  induction n generalizing m l with
  | zero =>
    have : l = [] := List.length_eq_zero.mp (Nat.le_zero.mp hn)
    subst this
    cases m <;> rfl
  | succ n ih =>
    cases l with
    | nil => cases m <;> rfl
    | cons c cs =>
      cases m with
      | zero => simp at hm
      | succ m =>
        simp only [scanToksF]
        rcases ht : takeTok (c :: cs) with _ | t
        · simp only [ht]
          exact ih (by simp at hn ⊢; omega) (by simp at hm ⊢; omega)
        · simp only [ht]
          have hl := takeTok_after_length ht
          have h1 : t.after.length ≤ n := by simp at hn hl; omega
          have h2 : t.after.length ≤ m := by simp at hm hl; omega
          rw [ih h1 h2]

theorem scanToks_cons (c : Char) (cs : List Char) :
    scanToks (c :: cs) =
      match takeTok (c :: cs) with
      | some t => t :: scanToks t.after
      | none => scanToks cs := by
  show scanToksF (cs.length + 1) (c :: cs) = _
  simp only [scanToksF]
  rcases ht : takeTok (c :: cs) with _ | t
  · simp only [ht]
    rfl
  · simp only [ht]
    have hl := takeTok_after_length ht
    have h1 : t.after.length ≤ cs.length := by simp at hl; omega
    rw [scanToksF_fuel h1 (le_refl _)]
    rfl

theorem scanToks_nil_no_digit {l : List Char} (h : scanToks l = []) :
    ∀ c ∈ l, c.isDigit = false := by
  induction l with
  | nil => intro c hc; cases hc
  | cons c cs ih =>
    rw [scanToks_cons] at h
    rcases ht : takeTok (c :: cs) with _ | t
    · rw [ht] at h
      intro c' hc'
      rcases List.mem_cons.mp hc' with hc' | hc'
      · subst hc'
        by_contra hcd
        have hds := @takeTok_isSome_of_digit c' cs (by simpa using hcd)
        rw [ht] at hds
        simp at hds
      · exact ih h c' hc'
    · rw [ht] at h
      cases h

/-- The trailing-range regex
`(\d{1,2})(?::(\d{2}))?-\s*(\d{1,2})(?::(\d{2}))?\s*(AM|PM)` tried at one
position; returns the first hour, its minutes (default 0) and the
trailing meridian. -/
def matchTrailingAt (l : List Char) : Option (Nat × Nat × Meridian) :=
  match l with
  | [] => none
  | c1 :: cs =>
    if c1.isDigit then
      let hr := takeHour c1 cs
      let mr := takeMinute hr.2
      match mr.2 with
      | '-' :: r3 =>
        let r4 := r3.dropWhile isSpaceChar
        match r4 with
        | c5 :: cs5 =>
          if c5.isDigit then
            let hr2 := takeHour c5 cs5
            let mr2 := takeMinute hr2.2
            let r7 := mr2.2.dropWhile isSpaceChar
            match takeMer r7 with
            | some p => some (hr.1, mr.1.getD 0, p.1)
            | none => none
          else none
        | [] => none
      | _ => none
    else none

/-- `re.search` with the trailing-range regex: leftmost position where it
matches. -/
def searchTrailing : List Char → Option (Nat × Nat × Meridian)
  | [] => none
  | c :: cs =>
    match matchTrailingAt (c :: cs) with
    | some x => some x
    | none => searchTrailing cs

theorem matchTrailingAt_none_of_not_digit {c : Char} {cs : List Char}
    (hd : c.isDigit = false) : matchTrailingAt (c :: cs) = none := by
  simp [matchTrailingAt, hd]

theorem searchTrailing_none_of_no_digit {l : List Char}
    (h : ∀ c ∈ l, c.isDigit = false) : searchTrailing l = none := by
  induction l with
  | nil => rfl
  | cons c cs ih =>
    rw [searchTrailing, matchTrailingAt_none_of_not_digit (h c (by simp))]
    exact ih fun c' hc' => h c' (by simp [hc'])

/-- `re.search(r'\b(AM|PM)\b', window)` on the 10-character look-ahead
window, scanning with the previous character. -/
def searchMerWord : Option Char → List Char → Option Meridian
  | _, [] => none
  | prev, c :: cs =>
    match
      (if boundaryOK prev then
        match takeMer (c :: cs) with
        | some p => if boundaryAfter p.2 then some p.1 else none
        | none => none
      else none) with
    | some m => some m
    | none => searchMerWord (some c) cs

/-- Body of `parse_time_for_sort` after the normalization
`s = str(raw).replace(unicode dashes, "-").strip().upper()`. -/
def parse_time_core (s : List Char) : Option PyTime :=
  if searchANYTIME none s then some PyTime.sentinel
  else
    match scanToks s with
      | [] =>
        match searchTrailing s with
        | some x =>
          let h0 := x.1
          let m0 := x.2.1
          let h1 := if x.2.2 = Meridian.pm ∧ h0 ≠ 12 then h0 + 12 else h0
          let h2 := if x.2.2 = Meridian.am ∧ h1 = 12 then 0 else h1
          mkTime h2 m0
        | none => some PyTime.sentinel
      | t :: ts =>
        let chosen := ((t :: ts).find? (fun tk => tk.mer.isSome)).getD t
        let mer : Option Meridian :=
          match chosen.mer with
          | some m => some m
          | none => searchMerWord none (t.after.take 10)
        let hour0 := chosen.hour
        let minute0 := chosen.minute.getD 0
        let hour1 := if mer = some Meridian.pm ∧ hour0 ≠ 12 then hour0 + 12 else hour0
        let hour2 := if mer = some Meridian.am ∧ hour1 = 12 then 0 else hour1
        if hour2 > 23 then some PyTime.sentinel
        else mkTime hour2 (if minute0 > 59 then 0 else minute0)

/-- `parse_time_for_sort` from `auroville_agent.py`.  Faithful embedding:
the result is `none` exactly when the Python function would raise (which
the totality theorem below shows never happens). -/
def parse_time_for_sort (raw : String) : Option PyTime :=
  if raw = "" then some PyTime.sentinel
  else parse_time_core ((pyStripList (raw.data.map replDash)).map upperChar)

theorem scanToks_nil_of_no_digit {l : List Char}
    (h : ∀ c ∈ l, c.isDigit = false) : scanToks l = [] := by
  induction l with
  | nil => rfl
  | cons c cs ih =>
    rw [scanToks_cons, takeTok_none_of_not_digit (h c (by simp))]
    exact ih fun c' hc' => h c' (by simp [hc'])

theorem mkTime_clamped_isSome (h m : Nat) :
    (if h > 23 then some PyTime.sentinel
     else mkTime h (if m > 59 then 0 else m)).isSome := by
  split
  · rfl
  · rename_i hh
    have h1 : h ≤ 23 := by omega
    have h2 : (if m > 59 then 0 else m) ≤ 59 := by split <;> omega
    rw [mkTime, if_pos]
    · rfl
    · simp only [Bool.and_eq_true, decide_eq_true_eq]
      exact ⟨h1, h2⟩

theorem parse_time_core_isSome (s : List Char) : (parse_time_core s).isSome := by
  rw [parse_time_core]
  split
  · rfl
  · rcases hsc : scanToks s with _ | ⟨t, ts⟩
    · show (match searchTrailing s with
        | some x =>
          let h0 := x.1
          let m0 := x.2.1
          let h1 := if x.2.2 = Meridian.pm ∧ h0 ≠ 12 then h0 + 12 else h0
          let h2 := if x.2.2 = Meridian.am ∧ h1 = 12 then 0 else h1
          mkTime h2 m0
        | none => some PyTime.sentinel).isSome
      rw [searchTrailing_none_of_no_digit (scanToks_nil_no_digit hsc)]
      rfl
    · exact mkTime_clamped_isSome _ _

theorem parse_time_core_sentinel_of_no_digit {s : List Char}
    (h : ∀ c ∈ s, c.isDigit = false) : parse_time_core s = some PyTime.sentinel := by
  rw [parse_time_core]
  split
  · rfl
  · simp only [scanToks_nil_of_no_digit h, searchTrailing_none_of_no_digit h]

theorem pyStripList_subset {l : List Char} : ∀ c ∈ pyStripList l, c ∈ l := by
  intro c hc
  rw [pyStripList, List.mem_reverse] at hc
  have h1 := (List.dropWhile_sublist isSpaceChar).subset hc
  rw [List.mem_reverse] at h1
  exact (List.dropWhile_sublist isSpaceChar).subset h1

theorem replDash_not_digit {c : Char} (h : c.isDigit = false) :
    (replDash c).isDigit = false := by
  rw [replDash]
  split
  · decide
  · exact h

theorem upperChar_not_digit {c : Char} (h : c.isDigit = false) :
    (upperChar c).isDigit = false := by
  rw [upperChar]
  split
  · rename_i hc
    simp only [Bool.and_eq_true, decide_eq_true_eq] at hc
    have key : ∀ n, n < 123 → 97 ≤ n → (Char.ofNat (n - 32)).isDigit = false := by decide
    exact key c.toNat (by omega) hc.1
  · exact h

theorem parse_time_for_sort_isSome (raw : String) :
    (parse_time_for_sort raw).isSome := by
  rw [parse_time_for_sort]
  split
  · rfl
  · exact parse_time_core_isSome _

theorem parse_time_for_sort_no_digit (raw : String)
    (h : ∀ c ∈ raw.data, c.isDigit = false) :
    parse_time_for_sort raw = some PyTime.sentinel := by
  rw [parse_time_for_sort]
  split
  · rfl
  · apply parse_time_core_sentinel_of_no_digit
    intro c hc
    rcases List.mem_map.mp hc with ⟨c1, hc1, rfl⟩
    have hc2 := pyStripList_subset _ hc1
    rcases List.mem_map.mp hc2 with ⟨c0, hc0, rfl⟩
    exact upperChar_not_digit (replDash_not_digit (h c0 hc0))

/-- C5: evaluation of the embedded `parse_time_for_sort` at the failing
input `"7-9 AM"`.  The function's own docstring ("extracts the first valid
time"), its dead trailing-range branch and the look-ahead comment
("e.g. 7-9 AM") all intend 07:00, and the spec scenario states 07:00, but
the token regex attaches the trailing `AM` to the second hour token and
the code prefers the first token that carries a meridian, so the result
is 09:00. -/
theorem c5_parse_time_range_returns_end :
    parse_time_for_sort "7-9 AM" = some ⟨9, 0, 0⟩ ∧
      (⟨9, 0, 0⟩ : PyTime) ≠ ⟨7, 0, 0⟩ := by decide

/-- C6 counterexample: an out-of-range minute does not fall back to the
sentinel; `parse_time_for_sort "7:99"` is 07:00, not 23:59:59. -/
theorem c6_out_of_range_minute_not_sentinel :
    parse_time_for_sort "7:99" = some ⟨7, 0, 0⟩ ∧
      (⟨7, 0, 0⟩ : PyTime) ≠ PyTime.sentinel := by decide

/-- C6 (amended): `parse_time_for_sort` is total — for every input string
it never raises — and it resolves inputs containing no digit at all
(empty, garbage, unicode dashes, labels like "anytime") and any
out-of-range hour to the sentinel maximal time 23:59:59; an out-of-range
minute is coerced to 0 while the parsed hour is kept. -/
theorem c6_parse_time_total_and_sentinel :
    (∀ raw : String, (parse_time_for_sort raw).isSome) ∧
    (∀ raw : String, (∀ c ∈ raw.data, c.isDigit = false) →
      parse_time_for_sort raw = some PyTime.sentinel) ∧
    parse_time_for_sort "" = some PyTime.sentinel ∧
    parse_time_for_sort "anytime" = some PyTime.sentinel ∧
    parse_time_for_sort "Open" = some PyTime.sentinel ∧
    parse_time_for_sort "all day" = some PyTime.sentinel ∧
    parse_time_for_sort "—–" = some PyTime.sentinel ∧
    parse_time_for_sort "99 junk –" = some PyTime.sentinel ∧
    parse_time_for_sort "7:99" = some ⟨7, 0, 0⟩ :=
  ⟨parse_time_for_sort_isSome, parse_time_for_sort_no_digit, by decide, by decide,
    by decide, by decide, by decide, by decide, by decide⟩

/-- Witness for C6: the quantified parts of the amended theorem applied at
concrete inputs. -/
theorem c6_witness :
    parse_time_for_sort "no fixed hour" = some PyTime.sentinel ∧
      (parse_time_for_sort "whenever!").isSome :=
  ⟨c6_parse_time_total_and_sentinel.2.1 "no fixed hour" (by decide),
    c6_parse_time_total_and_sentinel.1 "whenever!"⟩

/-- `datetime.date` value. -/
structure PyDate where
  year : Nat
  month : Nat
  day : Nat
deriving DecidableEq, Repr

/-- Python `date.__lt__`: lexicographic on (year, month, day). -/
def PyDate.ltB (a b : PyDate) : Bool :=
  a.year < b.year ||
    (a.year = b.year &&
      (a.month < b.month || (a.month = b.month && a.day < b.day)))

/-- `datetime.datetime` value, split into its date and time parts. -/
structure PyDateTime where
  date : PyDate
  time : PyTime
deriving DecidableEq, Repr

/-- Gregorian leap-year rule used by `datetime`. -/
def isLeapYear (y : Nat) : Bool :=
  y % 4 = 0 && (y % 100 ≠ 0 || y % 400 = 0)

/-- Number of days of a month, as validated by the `datetime.date`
constructor. -/
def daysInMonth (y m : Nat) : Nat :=
  if m = 2 then (if isLeapYear y then 29 else 28)
  else if m = 4 ∨ m = 6 ∨ m = 9 ∨ m = 11 then 30
  else 31

/-- The `datetime.date(y, m, d)` constructor; `none` models the
`ValueError` raised on an invalid date (this is what makes
`strptime` reject, e.g., February 30). -/
def mkDate (y m d : Nat) : Option PyDate :=
  if 1 ≤ y ∧ y ≤ 9999 ∧ 1 ≤ m ∧ m ≤ 12 ∧ 1 ≤ d ∧ d ≤ daysInMonth y m then
    some ⟨y, m, d⟩
  else none

/-- Upper-cased full month names with their numbers (`%B`; `strptime`
matches month names case-insensitively, which the embedding models by
upper-casing the input before matching). -/
def monthNamesFull : List (String × Nat) :=
  [("JANUARY", 1), ("FEBRUARY", 2), ("MARCH", 3), ("APRIL", 4), ("MAY", 5),
   ("JUNE", 6), ("JULY", 7), ("AUGUST", 8), ("SEPTEMBER", 9), ("OCTOBER", 10),
   ("NOVEMBER", 11), ("DECEMBER", 12)]

/-- Upper-cased abbreviated month names (`%b`). -/
def monthNamesAbbr : List (String × Nat) :=
  [("JAN", 1), ("FEB", 2), ("MAR", 3), ("APR", 4), ("MAY", 5), ("JUN", 6),
   ("JUL", 7), ("AUG", 8), ("SEP", 9), ("OCT", 10), ("NOV", 11), ("DEC", 12)]

/-- Match one name of the given table as a prefix of the input. -/
def takeNameFrom : List (String × Nat) → List Char → Option (Nat × List Char)
  | [], _ => none
  | (nm, v) :: rest, l =>
    if startsWithL nm.data l then some (v, l.drop nm.data.length)
    else takeNameFrom rest l

/-- The `strptime` day field `%d`, whose regex is
`(3[01]|[12]\d|0[1-9]|[1-9])`. -/
def takeDayTok : List Char → Option (Nat × List Char)
  | c1 :: c2 :: rest =>
    if c1 = '3' ∧ (c2 = '0' ∨ c2 = '1') then some (30 + digitVal c2, rest)
    else if (c1 = '1' ∨ c1 = '2') ∧ c2.isDigit then
      some (digitVal c1 * 10 + digitVal c2, rest)
    else if c1 = '0' ∧ ('1' ≤ c2 ∧ c2 ≤ '9') then some (digitVal c2, rest)
    else if '1' ≤ c1 ∧ c1 ≤ '9' then some (digitVal c1, c2 :: rest)
    else none
  | [c1] => if '1' ≤ c1 ∧ c1 ≤ '9' then some (digitVal c1, []) else none
  | [] => none

/-- The `strptime` month field `%m`, whose regex is
`(1[0-2]|0[1-9]|[1-9])`. -/
def takeMonthTok : List Char → Option (Nat × List Char)
  | c1 :: c2 :: rest =>
    if c1 = '1' ∧ (c2 = '0' ∨ c2 = '1' ∨ c2 = '2') then
      some (10 + digitVal c2, rest)
    else if c1 = '0' ∧ ('1' ≤ c2 ∧ c2 ≤ '9') then some (digitVal c2, rest)
    else if '1' ≤ c1 ∧ c1 ≤ '9' then some (digitVal c1, c2 :: rest)
    else none
  | [c1] => if '1' ≤ c1 ∧ c1 ≤ '9' then some (digitVal c1, []) else none
  | [] => none

/-- The `strptime` year field `%Y`: exactly four digits. -/
def takeYear4 : List Char → Option (Nat × List Char)
  | a :: b :: c :: d :: rest =>
    if a.isDigit ∧ b.isDigit ∧ c.isDigit ∧ d.isDigit then
      some (((digitVal a * 10 + digitVal b) * 10 + digitVal c) * 10 + digitVal d, rest)
    else none
  | _ => none

/-- The `strptime` year field `%y`: exactly two digits. -/
def takeYear2 : List Char → Option (Nat × List Char)
  | a :: b :: rest =>
    if a.isDigit ∧ b.isDigit then some (digitVal a * 10 + digitVal b, rest)
    else none
  | _ => none

/-- `%y` century rule of `strptime`: 00-68 map to 20xx, 69-99 to 19xx. -/
def yearOfTwoDigit (yy : Nat) : Nat := if yy ≤ 68 then 2000 + yy else 1900 + yy

/-- A whitespace run in a `strptime` format matches `\s+`. -/
def takeSpaces1 : List Char → Option (List Char)
  | c :: rest =>
    if isSpaceChar c then some (rest.dropWhile isSpaceChar) else none
  | [] => none

/-- A literal character of a `strptime` format. -/
def takeLit (ch : Char) : List Char → Option (List Char)
  | c :: rest => if c = ch then some rest else none
  | [] => none

/-- `strptime(p, "%B %d, %Y")`. -/
def parseFmtBdY (l : List Char) : Option PyDate := do
  let (m, r1) ← takeNameFrom monthNamesFull l
  let r2 ← takeSpaces1 r1
  let (d, r3) ← takeDayTok r2
  let r4 ← takeLit ',' r3
  let r5 ← takeSpaces1 r4
  let (y, r6) ← takeYear4 r5
  if r6 = [] then mkDate y m d else none

/-- `strptime(p, "%B %d")` (default year 1900). -/
def parseFmtBd (l : List Char) : Option PyDate := do
  let (m, r1) ← takeNameFrom monthNamesFull l
  let r2 ← takeSpaces1 r1
  let (d, r3) ← takeDayTok r2
  if r3 = [] then mkDate 1900 m d else none

/-- `strptime(p, "%d %B")` (default year 1900). -/
def parseFmtdB (l : List Char) : Option PyDate := do
  let (d, r1) ← takeDayTok l
  let r2 ← takeSpaces1 r1
  let (m, r3) ← takeNameFrom monthNamesFull r2
  if r3 = [] then mkDate 1900 m d else none

/-- `strptime(p, "%d %b")` (default year 1900). -/
def parseFmtdb (l : List Char) : Option PyDate := do
  let (d, r1) ← takeDayTok l
  let r2 ← takeSpaces1 r1
  let (m, r3) ← takeNameFrom monthNamesAbbr r2
  if r3 = [] then mkDate 1900 m d else none

/-- `strptime(p, "%d.%m.%y")`. -/
def parseFmtdmy (l : List Char) : Option PyDate := do
  let (d, r1) ← takeDayTok l
  let r2 ← takeLit '.' r1
  let (m, r3) ← takeMonthTok r2
  let r4 ← takeLit '.' r3
  let (yy, r5) ← takeYear2 r4
  if r5 = [] then mkDate (yearOfTwoDigit yy) m d else none

/-- `strptime(p, "%d.%m.%Y")`. -/
def parseFmtdmY (l : List Char) : Option PyDate := do
  let (d, r1) ← takeDayTok l
  let r2 ← takeLit '.' r1
  let (m, r3) ← takeMonthTok r2
  let r4 ← takeLit '.' r3
  let (y, r5) ← takeYear4 r4
  if r5 = [] then mkDate y m d else none

/-- The string handed to `strptime` for one format of the source's list:
formats without a year field get `", <current year>"` appended first; the
result is stripped (`p.strip()`) and upper-cased (modeling `IGNORECASE`
month matching). -/
def fmtInput (dateStr : String) (year : Nat) (hasYear : Bool) : List Char :=
  if hasYear then (pyStripList dateStr.data).map upperChar
  else (pyStripList (dateStr ++ ", " ++ toString year).data).map upperChar

/-- The ordered `strptime` loop of the source
(`["%B %d, %Y", "%B %d", "%d %B", "%d %b", "%d.%m.%y", "%d.%m.%Y"]`):
first successful parse wins. -/
def tryFmts (dateStr : String) (year : Nat) : Option PyDate :=
  match parseFmtBdY (fmtInput dateStr year true) with
  | some d => some d
  | none =>
  match parseFmtBd (fmtInput dateStr year false) with
  | some d => some d
  | none =>
  match parseFmtdB (fmtInput dateStr year false) with
  | some d => some d
  | none =>
  match parseFmtdb (fmtInput dateStr year false) with
  | some d => some d
  | none =>
  match parseFmtdmy (fmtInput dateStr year true) with
  | some d => some d
  | none => parseFmtdmY (fmtInput dateStr year true)

/-- The `event_dt` computation of the filter loop: first format whose date
parses, combined with `parse_time_for_sort(time_str)`.  In the source a
`parse_time_for_sort` failure inside the per-format `try` would fall to
the next format; since `parse_time_for_sort` is total (proved above) the
two readings agree. -/
def resolveEventDt (dateStr timeStr : String) (todayYear : Nat) :
    Option (PyDate × PyTime) :=
  match tryFmts dateStr todayYear with
  | some d =>
    match parse_time_for_sort timeStr with
    | some t => some (d, t)
    | none => none
  | none => none

/-- `is_date_specific` from `auroville_agent.py`: a truthy date whose
stripped, lower-cased form is not one of the placeholders. -/
def is_date_specific (dateStr dayStr : String) : Bool :=
  decide (dateStr ≠ "") &&
    !(["", "n/a", "upcoming", "none"].contains (pyLower (pyStrip dateStr)))

/-- One retrieved event record: the `page_content` together with its
metadata fields (a missing key is the empty string). -/
structure Doc where
  content : String
  title : String
  day : String
  date : String
  time : String
  location : String
  contribution : String
  contact : String
  phone : String
  category : String
  poster : String
deriving DecidableEq, Repr

/-- The deduplication key `(title, date_str, day)` of the filter loop,
where `date_str` is the stripped date and the other two components are
the raw metadata values. -/
def dedupKey (d : Doc) : String × String × String :=
  (d.title, pyStrip d.date, d.day)

/-- The past-event test of the filter loop: `False` exactly when the loop
executes one of its two `continue`s for a resolved event datetime (date
before today, or today with a start time before now). -/
def timeKeep (now : PyDateTime) (d : Doc) : Bool :=
  let dateStr := pyStrip d.date
  let timeStr := pyStrip d.time
  if is_date_specific dateStr d.day then
    match resolveEventDt dateStr timeStr now.date.year with
    | some (ed, et) =>
      if PyDate.ltB ed now.date then false
      else if ed = now.date ∧ PyTime.ltB et now.time then false
      else true
    | none => true
  else true

/-- The `FILTER OUT PAST EVENTS` loop of `search_auroville_events`
(dedupe on `(title, date, day)` with a `seen` set, then the past-event
exclusion, first survivor wins). -/
def filterPastLoop (now : PyDateTime) :
    List (String × String × String) → List Doc → List Doc
  | _, [] => []
  | seen, d :: ds =>
    if dedupKey d ∈ seen then filterPastLoop now seen ds
    else if timeKeep now d then d :: filterPastLoop now (dedupKey d :: seen) ds
    else filterPastLoop now seen ds

/-- The filtered, deduplicated record list of a search. -/
def filterPast (now : PyDateTime) (docs : List Doc) : List Doc :=
  filterPastLoop now [] docs

theorem mem_filterPastLoop_timeKeep {now : PyDateTime} :
    ∀ (seen : List (String × String × String)) (docs : List Doc) (d : Doc),
      d ∈ filterPastLoop now seen docs → timeKeep now d = true := by
  intro seen docs
  induction docs generalizing seen with
  | nil => intro d h; cases h
  | cons x xs ih =>
    intro d h
    rw [filterPastLoop] at h
    split at h
    · exact ih seen d h
    · split at h
      · rename_i hk
        rcases List.mem_cons.mp h with rfl | h'
        · exact hk
        · exact ih _ d h'
      · exact ih seen d h

theorem filterPastLoop_key_char (now : PyDateTime) (k : String × String × String) :
    ∀ (docs : List Doc) (seen : List (String × String × String)),
      (filterPastLoop now seen docs).filter (fun d => decide (dedupKey d = k)) =
        if k ∈ seen then []
        else (docs.filter (fun d => decide (dedupKey d = k) && timeKeep now d)).take 1 := by
  intro docs
  induction docs with
  | nil =>
    intro seen
    rw [filterPastLoop]
    split <;> rfl
  | cons x xs ih =>
    intro seen
    rw [filterPastLoop]
    by_cases hx : dedupKey x ∈ seen
    · rw [if_pos hx, ih seen]
      by_cases hk : k ∈ seen
      · rw [if_pos hk, if_pos hk]
      · have hne : ¬ dedupKey x = k := fun h => hk (h ▸ hx)
        rw [if_neg hk, if_neg hk, List.filter_cons]
        simp [hne]
    · rw [if_neg hx]
      by_cases ht : timeKeep now x = true
      · rw [if_pos ht]
        by_cases hxk : dedupKey x = k
        · have hk : k ∉ seen := hxk ▸ hx
          rw [List.filter_cons, if_pos (by simp [hxk]), if_neg hk,
            List.filter_cons, if_pos (by simp [hxk, ht]), List.take_succ_cons,
            ih (dedupKey x :: seen), if_pos (by simp [hxk])]
          rfl
        · rw [List.filter_cons, if_neg (by simp [hxk]), ih (dedupKey x :: seen)]
          by_cases hk : k ∈ seen
          · rw [if_pos (by simp [hk]), if_pos hk]
          · rw [if_neg (by
                intro hmem
                rcases List.mem_cons.mp hmem with h | h
                · exact hxk h.symm
                · exact hk h),
              if_neg hk, List.filter_cons, if_neg (by simp [hxk])]
      · rw [if_neg ht, ih seen]
        by_cases hk : k ∈ seen
        · rw [if_pos hk, if_pos hk]
        · rw [if_neg hk, if_neg hk, List.filter_cons,
            if_neg (by simp [Bool.eq_false_iff.mp (Bool.not_eq_true _ ▸ ht)])]

/-- C2: past-event filtering.  (1) Every record in the filtered output
that is date-specific and whose date resolves to a concrete event
datetime fails neither drop condition: the resolved date is not strictly
before today, and if it equals today the parsed start time is not before
now's time.  Contrapositively, a record resolving strictly before today,
or to today with an earlier start time, never appears.  (2) A record that
is not date-specific, or whose date cannot be resolved at all, is never
excluded on time grounds: whenever its dedup key is fresh, the loop keeps
it. -/
theorem c2_past_event_exclusion :
    (∀ (now : PyDateTime) (docs : List Doc) (d : Doc),
      d ∈ filterPast now docs →
      is_date_specific (pyStrip d.date) d.day = true →
      ∀ ed et,
        resolveEventDt (pyStrip d.date) (pyStrip d.time) now.date.year = some (ed, et) →
        PyDate.ltB ed now.date = false ∧
          ¬(ed = now.date ∧ PyTime.ltB et now.time = true)) ∧
    (∀ (now : PyDateTime) (seen : List (String × String × String)) (d : Doc) (ds : List Doc),
      (is_date_specific (pyStrip d.date) d.day = false ∨
        resolveEventDt (pyStrip d.date) (pyStrip d.time) now.date.year = none) →
      dedupKey d ∉ seen →
      filterPastLoop now seen (d :: ds) =
        d :: filterPastLoop now (dedupKey d :: seen) ds) := by
  constructor
  · intro now docs d hmem hds ed et hres
    have ht := mem_filterPastLoop_timeKeep _ _ _ hmem
    rw [timeKeep] at ht
    simp only [hds, if_true] at ht
    rw [hres] at ht
    have ht2 : (if PyDate.ltB ed now.date = true then false
        else if ed = now.date ∧ PyTime.ltB et now.time = true then false
        else true) = true := ht
    constructor
    · by_contra hlt
      rw [Bool.not_eq_false] at hlt
      rw [if_pos hlt] at ht2
      cases ht2
    · intro hand
      rcases hand with ⟨heq, hlt⟩
      by_cases h1 : PyDate.ltB ed now.date = true
      · rw [if_pos h1] at ht2
        cases ht2
      · rw [if_neg h1, if_pos ⟨heq, hlt⟩] at ht2
        cases ht2
  · intro now seen d ds hcase hfresh
    rw [filterPastLoop, if_neg hfresh, if_pos]
    rcases hcase with h | h
    · simp [timeKeep, h]
    · rw [timeKeep]
      simp only [h]
      split <;> rfl

def c2now : PyDateTime := ⟨⟨2025, 11, 15⟩, ⟨10, 0, 0⟩⟩

def c2doc : Doc :=
  ⟨"", "Evening Talk", "", "November 20, 2025", "5 PM", "", "", "", "", "", ""⟩

def c2docDaily : Doc :=
  ⟨"", "Reiki Session", "", "", "Anytime", "", "", "", "", "", ""⟩

/-- Witness for C2: both parts applied at concrete records. -/
theorem c2_witness :
    (PyDate.ltB ⟨2025, 11, 20⟩ ⟨2025, 11, 15⟩ = false ∧
      ¬((⟨2025, 11, 20⟩ : PyDate) = ⟨2025, 11, 15⟩ ∧
        PyTime.ltB ⟨17, 0, 0⟩ ⟨10, 0, 0⟩ = true)) ∧
    filterPastLoop c2now [] [c2docDaily] =
      c2docDaily :: filterPastLoop c2now [dedupKey c2docDaily] [] :=
  ⟨c2_past_event_exclusion.1 c2now [c2doc] c2doc (by decide) (by decide)
      ⟨2025, 11, 20⟩ ⟨17, 0, 0⟩ (by decide),
    c2_past_event_exclusion.2 c2now [] c2docDaily [] (Or.inl (by decide)) (by decide)⟩

def c3now : PyDateTime := ⟨⟨2025, 11, 15⟩, ⟨10, 0, 0⟩⟩

def c3doc : Doc :=
  ⟨"", "Morning Yoga", "", "November 14, 2025", "7 AM", "", "", "", "", "", ""⟩

/-- C3 counterexample: two retrieved records with identical
(title, date, day) — here literally the same past-dated record twice —
produce zero entries in the filtered output, not exactly one: the
past-event exclusion can drop every occurrence of a duplicate key. -/
theorem c3_identical_records_can_produce_zero_entries :
    filterPast c3now [c3doc, c3doc] = [] ∧
      (filterPast c3now [c3doc, c3doc]).length ≠ 1 := by decide

/-- C3 (amended): for every dedup key, the filtered output restricted to
that key equals the input restricted to that key and to records surviving
the past-event test, truncated to its first element: at most one entry
per (title, date, day); the first occurrence that survives past-event
filtering wins and every later duplicate is silently dropped; if every
occurrence is excluded as past, no entry results. -/
theorem c3_dedup_first_survivor_wins (now : PyDateTime) (docs : List Doc)
    (k : String × String × String) :
    (filterPast now docs).filter (fun d => decide (dedupKey d = k)) =
      (docs.filter (fun d => decide (dedupKey d = k) && timeKeep now d)).take 1 := by
  rw [filterPast, filterPastLoop_key_char]
  rw [if_neg (List.not_mem_nil k)]

/-- The fixed category order of the pipeline. -/
def categoriesList : List String :=
  ["Date-specific", "Weekday-based", "Appointment/Daily-based"]

/-- The `NORMALIZE CATEGORY` step of `search_auroville_events`: substring
match on the stripped, lower-cased explicit category field first; if the
category is blank or unrecognized, derive from the presence of a date,
else of a (truthy, i.e. non-empty) day. -/
def normCategory (d : Doc) : String :=
  let rawCat := pyLower (pyStrip d.category)
  if strContains rawCat "date" then "Date-specific"
  else if strContains rawCat "week" || strContains rawCat "weekday" then
    "Weekday-based"
  else if strContains rawCat "appoint" || strContains rawCat "daily" ||
      strContains rawCat "everyday" then
    "Appointment/Daily-based"
  else if is_date_specific d.date d.day then "Date-specific"
  else if d.day ≠ "" then "Weekday-based"
  else "Appointment/Daily-based"

/-- The `_sort_time` assignment: `parse_time_for_sort` of the raw time
field.  `parse_time_for_sort` is total (proved above), so reading the
parse through `getD` is exact. -/
def docSortTime (d : Doc) : PyTime :=
  (parse_time_for_sort d.time).getD PyTime.sentinel

/-- Lower-cased weekday names, for the claim-side reading of "the day
names a weekday". -/
def weekdayNames : List String :=
  ["monday", "tuesday", "wednesday", "thursday", "friday", "saturday", "sunday"]

/-- The classifier exactly as claim C7 words it, for comparison with the
source's `normCategory`: an explicit category recognizable by substring
match on "date"/"week"/"daily"/"appoint"/"everyday" overrides; otherwise
a present non-placeholder date gives Date-specific, else a day that names
a weekday gives Weekday-based, else Appointment/Daily-based. -/
def claimClassify (d : Doc) : String :=
  let rawCat := pyLower (pyStrip d.category)
  if strContains rawCat "date" then "Date-specific"
  else if strContains rawCat "week" then "Weekday-based"
  else if strContains rawCat "daily" || strContains rawCat "appoint" ||
      strContains rawCat "everyday" then
    "Appointment/Daily-based"
  else if is_date_specific d.date d.day then "Date-specific"
  else if weekdayNames.contains (pyLower (pyStrip d.day)) then "Weekday-based"
  else "Appointment/Daily-based"

/-- The classifier as claim C7 must read after the counterexample below:
identical to the claim's wording except that any non-empty day — not only
one naming a weekday — yields Weekday-based. -/
def claimClassifyAmended (d : Doc) : String :=
  let rawCat := pyLower (pyStrip d.category)
  if strContains rawCat "date" then "Date-specific"
  else if strContains rawCat "week" then "Weekday-based"
  else if strContains rawCat "daily" || strContains rawCat "appoint" ||
      strContains rawCat "everyday" then
    "Appointment/Daily-based"
  else if is_date_specific d.date d.day then "Date-specific"
  else if d.day ≠ "" then "Weekday-based"
  else "Appointment/Daily-based"

def c7doc : Doc :=
  ⟨"", "Community Lunch", "twice a month", "", "", "", "", "", "", "", ""⟩

/-- C7 counterexample: a record whose day field is non-empty but names no
weekday is classified Weekday-based by the code, where the claim's rule
("day names a weekday") yields Appointment/Daily-based. -/
theorem c7_day_need_not_name_weekday :
    normCategory c7doc = "Weekday-based" ∧
      claimClassify c7doc = "Appointment/Daily-based" ∧
      normCategory c7doc ≠ claimClassify c7doc := by decide

theorem startsWithL_trans {v w l : List Char} (h1 : startsWithL v w = true)
    (h2 : startsWithL w l = true) : startsWithL v l = true := by
  induction v generalizing w l with
  | nil => rfl
  | cons a as ih =>
    cases w with
    | nil => cases h1
    | cons b bs =>
      cases l with
      | nil => cases h2
      | cons c cs =>
        rw [startsWithL] at h1 h2 ⊢
        simp only [Bool.and_eq_true, decide_eq_true_eq] at h1 h2 ⊢
        exact ⟨h1.1.trans h2.1, ih h1.2 h2.2⟩

theorem infixOfL_of_startsWith {v w : List Char} (hvw : startsWithL v w = true) :
    ∀ l, infixOfL w l = true → infixOfL v l = true := by
  intro l
  induction l with
  | nil =>
    intro h
    rw [infixOfL] at h ⊢
    exact startsWithL_trans hvw h
  | cons c cs ih =>
    intro h
    rw [infixOfL] at h ⊢
    rcases Bool.or_eq_true _ _ |>.mp h with h' | h'
    · exact Bool.or_eq_true _ _ |>.mpr (Or.inl (startsWithL_trans hvw h'))
    · exact Bool.or_eq_true _ _ |>.mpr (Or.inr (ih h'))

/-- C7 (amended): the source classifier agrees everywhere with the
claim's rule amended so that any non-empty day (not only a weekday name)
yields Weekday-based; and every record receives exactly one of the three
categories. -/
theorem c7_classification_amended (d : Doc) :
    normCategory d = claimClassifyAmended d ∧ normCategory d ∈ categoriesList := by
  constructor
  · rw [normCategory, claimClassifyAmended]
    by_cases h1 : strContains (pyLower (pyStrip d.category)) "date" = true
    · rw [if_pos h1, if_pos h1]
    · rw [if_neg h1, if_neg h1]
      by_cases h2 : strContains (pyLower (pyStrip d.category)) "week" = true
      · rw [if_pos (by rw [h2]; rfl), if_pos h2]
      · by_cases h2b : strContains (pyLower (pyStrip d.category)) "weekday" = true
        · have h2c : infixOfL "weekday".data (pyLower (pyStrip d.category)).data = true := h2b
          have h2d : infixOfL "week".data (pyLower (pyStrip d.category)).data = true :=
            @infixOfL_of_startsWith "week".data "weekday".data (by decide) _ h2c
          exact absurd h2d h2
        · rw [if_neg (by simp [h2, h2b]), if_neg h2]
          by_cases ha : strContains (pyLower (pyStrip d.category)) "appoint" = true <;>
            by_cases hd : strContains (pyLower (pyStrip d.category)) "daily" = true <;>
            by_cases he : strContains (pyLower (pyStrip d.category)) "everyday" = true <;>
            simp [ha, hd, he]
  · rw [normCategory]
    split_ifs <;> simp [categoriesList]

/-- Witness for C7's amended theorem at a concrete record. -/
theorem c7_witness :
    normCategory c7doc = claimClassifyAmended c7doc ∧
      normCategory c7doc ∈ categoriesList :=
  c7_classification_amended c7doc

/-- UTF-8 encoding of one character, as `str.encode()` produces it. -/
def utf8Bytes (c : Char) : List Nat :=
  let n := c.toNat
  if n < 128 then [n]
  else if n < 2048 then [192 + n / 64, 128 + n % 64]
  else if n < 65536 then [224 + n / 4096, 128 + (n / 64) % 64, 128 + n % 64]
  else [240 + n / 262144, 128 + (n / 4096) % 64, 128 + (n / 64) % 64, 128 + n % 64]

/-- The bytes `urllib.parse.quote` never encodes (`_ALWAYS_SAFE`): ASCII
letters, digits, and `_ . - ~`. -/
def isAlwaysSafe (b : Nat) : Bool :=
  (48 ≤ b && b ≤ 57) || (65 ≤ b && b ≤ 90) || (97 ≤ b && b ≤ 122) ||
    b = 45 || b = 46 || b = 95 || b = 126

/-- Upper-case hexadecimal digit, as in `quote`'s `%XX` escapes. -/
def hexDigit (n : Nat) : Char :=
  if n < 10 then Char.ofNat (48 + n) else Char.ofNat (55 + n)

/-- One byte as `urllib.parse.quote` renders it, given the extra safe
byte set of the `safe` parameter. -/
def quoteByte (safe : List Nat) (b : Nat) : List Char :=
  if isAlwaysSafe b || safe.contains b then [Char.ofNat b]
  else ['%', hexDigit (b / 16), hexDigit (b % 16)]

/-- `urllib.parse.quote(s, safe=...)`: encode to UTF-8, then escape every
byte outside the safe set. -/
def pyQuote (safe : List Nat) (s : String) : String :=
  String.mk ((s.data.flatMap utf8Bytes).flatMap (quoteByte safe))

/-- `urllib.parse.quote(s, safe='')`, the form used for reference keys. -/
def quote0 (s : String) : String := pyQuote [] s

/-- `urllib.parse.quote(msg)` with the default `safe='/'`, the form used
for the WhatsApp message text. -/
def quoteSlash (s : String) : String := pyQuote [47] s

theorem char_toNat_lt (c : Char) : c.toNat < 1114112 := by
  rcases c.valid with h | h
  · exact Nat.lt_trans h (by norm_num)
  · exact h.2

theorem utf8Bytes_lt_256 (c : Char) : ∀ b ∈ utf8Bytes c, b < 256 := by
  have hv := char_toNat_lt c
  intro b hb
  rw [utf8Bytes] at hb
  split at hb <;>
    [skip; (split at hb <;> [skip; (split at hb <;> [skip; skip])])] <;>
    simp only [List.mem_cons, List.not_mem_nil, or_false] at hb <;>
    rcases hb with rfl | hb <;> try omega

theorem utf8Bytes_ne_nil (c : Char) : utf8Bytes c ≠ [] := by
  rw [utf8Bytes]
  split
  · simp
  · split
    · simp
    · split <;> simp

/-- Decoder for `utf8Bytes`, used only to prove that UTF-8 encoding is
injective. -/
def utf8DecodeOne : List Nat → Option (Char × List Nat)
  | [] => none
  | b :: r =>
    if b < 128 then some (Char.ofNat b, r)
    else if b < 224 then
      match r with
      | b2 :: r2 => some (Char.ofNat ((b - 192) * 64 + (b2 - 128)), r2)
      | [] => none
    else if b < 240 then
      match r with
      | b2 :: b3 :: r3 =>
        some (Char.ofNat (((b - 224) * 64 + (b2 - 128)) * 64 + (b3 - 128)), r3)
      | _ => none
    else
      match r with
      | b2 :: b3 :: b4 :: r4 =>
        some (Char.ofNat ((((b - 240) * 64 + (b2 - 128)) * 64 + (b3 - 128)) * 64 + (b4 - 128)), r4)
      | _ => none

theorem utf8DecodeOne_roundtrip (c : Char) (rest : List Nat) :
    utf8DecodeOne (utf8Bytes c ++ rest) = some (c, rest) := by
  have hv := char_toNat_lt c
  rw [utf8Bytes]
  by_cases h1 : c.toNat < 128
  · rw [if_pos h1]
    show utf8DecodeOne (c.toNat :: rest) = _
    simp only [utf8DecodeOne]
    rw [if_pos h1]
    rw [show Char.ofNat c.toNat = c from Char.ofNat_toNat c]
  · rw [if_neg h1]
    by_cases h2 : c.toNat < 2048
    · rw [if_pos h2]
      show utf8DecodeOne ((192 + c.toNat / 64) :: (128 + c.toNat % 64) :: rest) = _
      simp only [utf8DecodeOne]
      rw [if_neg (by omega), if_pos (by omega)]
      have harg : (192 + c.toNat / 64 - 192) * 64 + (128 + c.toNat % 64 - 128) = c.toNat := by
        omega
      rw [harg, Char.ofNat_toNat c]
    · rw [if_neg h2]
      by_cases h3 : c.toNat < 65536
      · rw [if_pos h3]
        show utf8DecodeOne
          ((224 + c.toNat / 4096) :: (128 + (c.toNat / 64) % 64) :: (128 + c.toNat % 64) :: rest) = _
        simp only [utf8DecodeOne]
        rw [if_neg (by omega), if_neg (by omega), if_pos (by omega)]
        have harg : ((224 + c.toNat / 4096 - 224) * 64 + (128 + (c.toNat / 64) % 64 - 128)) * 64 +
            (128 + c.toNat % 64 - 128) = c.toNat := by omega
        rw [harg, Char.ofNat_toNat c]
      · rw [if_neg h3]
        show utf8DecodeOne
          ((240 + c.toNat / 262144) :: (128 + (c.toNat / 4096) % 64) ::
            (128 + (c.toNat / 64) % 64) :: (128 + c.toNat % 64) :: rest) = _
        simp only [utf8DecodeOne]
        rw [if_neg (by omega), if_neg (by omega), if_neg (by omega)]
        have harg : (((240 + c.toNat / 262144 - 240) * 64 + (128 + (c.toNat / 4096) % 64 - 128)) * 64 +
            (128 + (c.toNat / 64) % 64 - 128)) * 64 + (128 + c.toNat % 64 - 128) = c.toNat := by
          omega
        rw [harg, Char.ofNat_toNat c]

theorem utf8Bytes_append_inj {c c' : Char} {r r' : List Nat}
    (h : utf8Bytes c ++ r = utf8Bytes c' ++ r') : c = c' ∧ r = r' := by
  have h1 := utf8DecodeOne_roundtrip c r
  have h2 := utf8DecodeOne_roundtrip c' r'
  rw [h, h2] at h1
  cases h1
  exact ⟨rfl, rfl⟩

theorem flatMap_utf8_inj : ∀ {l l' : List Char},
    l.flatMap utf8Bytes = l'.flatMap utf8Bytes → l = l' := by
  intro l
  induction l with
  | nil =>
    intro l' h
    cases l' with
    | nil => rfl
    | cons c' cs' =>
      rw [List.flatMap_nil, List.flatMap_cons] at h
      exact absurd (List.append_eq_nil.mp h.symm).1 (utf8Bytes_ne_nil c')
  | cons c cs ih =>
    intro l' h
    cases l' with
    | nil =>
      rw [List.flatMap_nil, List.flatMap_cons] at h
      exact absurd (List.append_eq_nil.mp h).1 (utf8Bytes_ne_nil c)
    | cons c' cs' =>
      rw [List.flatMap_cons, List.flatMap_cons] at h
      rcases utf8Bytes_append_inj h with ⟨rfl, h2⟩
      rw [ih h2]

/-- Value of a hexadecimal digit character, for the decoding direction. -/
def hexVal (c : Char) : Option Nat :=
  if 48 ≤ c.toNat ∧ c.toNat ≤ 57 then some (c.toNat - 48)
  else if 65 ≤ c.toNat ∧ c.toNat ≤ 70 then some (c.toNat - 55)
  else if 97 ≤ c.toNat ∧ c.toNat ≤ 102 then some (c.toNat - 87)
  else none

/-- Decoder for byte-level quoting, used only to prove that `quote0` is
injective. -/
def unquoteBytes : List Char → Option (List Nat)
  | [] => some []
  | c :: r =>
    if c = '%' then
      match r with
      | h1 :: h2 :: r2 => do
          let v1 ← hexVal h1
          let v2 ← hexVal h2
          let rest ← unquoteBytes r2
          pure ((v1 * 16 + v2) :: rest)
      | _ => none
    else do
      let rest ← unquoteBytes r
      pure (c.toNat :: rest)

theorem safe_byte_char (b : Nat) (hb : b < 256) (hs : isAlwaysSafe b = true) :
    (Char.ofNat b).toNat = b ∧ Char.ofNat b ≠ '%' := by
  revert hs
  revert hb
  revert b
  decide

theorem hexVal_hexDigit (x : Nat) (hx : x < 16) : hexVal (hexDigit x) = some x := by
  revert hx
  revert x
  decide

theorem unquoteBytes_cons_ne (c : Char) (tail : List Char) (hne : ¬ c = '%') :
    unquoteBytes (c :: tail) =
      (unquoteBytes tail).bind fun rest => some (c.toNat :: rest) := by
  rw [unquoteBytes.eq_def]
  exact if_neg hne

theorem unquoteBytes_cons_pct (h1 h2 : Char) (tail : List Char) :
    unquoteBytes ('%' :: h1 :: h2 :: tail) =
      (hexVal h1).bind fun v1 => (hexVal h2).bind fun v2 =>
        (unquoteBytes tail).bind fun rest => some ((v1 * 16 + v2) :: rest) := by
  rfl

theorem unquoteBytes_roundtrip :
    ∀ bs : List Nat, (∀ b ∈ bs, b < 256) →
      unquoteBytes (bs.flatMap (quoteByte [])) = some bs := by
  intro bs
  induction bs with
  | nil => intro; rfl
  | cons b rest ih =>
    intro hlt
    have hb : b < 256 := hlt b (by simp)
    have hrest := ih fun x hx => hlt x (by simp [hx])
    rw [List.flatMap_cons, quoteByte]
    by_cases hs : isAlwaysSafe b = true
    · rw [if_pos (by simp [hs])]
      rcases safe_byte_char b hb hs with ⟨ht, hne⟩
      show unquoteBytes (Char.ofNat b :: rest.flatMap (quoteByte [])) = _
      rw [unquoteBytes_cons_ne _ _ hne, hrest, ht]
      rfl
    · rw [if_neg (by simp [hs])]
      show unquoteBytes ('%' :: hexDigit (b / 16) :: hexDigit (b % 16) ::
        rest.flatMap (quoteByte [])) = _
      rw [unquoteBytes_cons_pct,
        hexVal_hexDigit (b / 16) (by omega), hexVal_hexDigit (b % 16) (by omega), hrest]
      show some ((b / 16 * 16 + b % 16) :: rest) = some (b :: rest)
      have hbb : b / 16 * 16 + b % 16 = b := by omega
      rw [hbb]

theorem quote0_inj {a b : String} (h : quote0 a = quote0 b) : a = b := by
  have ha := unquoteBytes_roundtrip (a.data.flatMap utf8Bytes)
    (by intro x hx; rcases List.mem_flatMap.mp hx with ⟨c, _, hc⟩; exact utf8Bytes_lt_256 c x hc)
  have hb := unquoteBytes_roundtrip (b.data.flatMap utf8Bytes)
    (by intro x hx; rcases List.mem_flatMap.mp hx with ⟨c, _, hc⟩; exact utf8Bytes_lt_256 c x hc)
  have hdata : ((a.data.flatMap utf8Bytes).flatMap (quoteByte [])) =
      ((b.data.flatMap utf8Bytes).flatMap (quoteByte [])) := congrArg String.data h
  rw [hdata, hb] at ha
  exact String.ext (flatMap_utf8_inj (Option.some.inj ha.symm))

theorem quote0_append (s t : String) : quote0 (s ++ t) = quote0 s ++ quote0 t := by
  apply String.ext
  show ((s ++ t).data.flatMap utf8Bytes).flatMap (quoteByte []) = _
  rw [String.data_append, List.flatMap_append, List.flatMap_append]
  rw [String.data_append]
  rfl

theorem PyTime.ltB_eq_true_iff (a b : PyTime) :
    (PyTime.ltB a b = true) ↔
      (a.hour < b.hour ∨ (a.hour = b.hour ∧
        (a.minute < b.minute ∨ (a.minute = b.minute ∧ a.second < b.second)))) := by
  simp [PyTime.ltB]

theorem PyTime.leB_eq_true_iff (a b : PyTime) :
    (PyTime.leB a b = true) ↔
      ¬(b.hour < a.hour ∨ (b.hour = a.hour ∧
        (b.minute < a.minute ∨ (b.minute = a.minute ∧ b.second < a.second)))) := by
  rw [PyTime.leB, Bool.not_eq_true', ← Bool.not_eq_true (PyTime.ltB b a)]
  exact not_congr (PyTime.ltB_eq_true_iff b a)

/-- `_sort_time` comparison between records, the key order of the
within-bucket sort. -/
def sortTimeLe (a b : Doc) : Prop :=
  PyTime.leB (docSortTime a) (docSortTime b) = true

instance : DecidableRel sortTimeLe :=
  fun a b => instDecidableEqBool (PyTime.leB (docSortTime a) (docSortTime b)) true

instance : IsTotal Doc sortTimeLe :=
  ⟨fun a b => by
    rw [sortTimeLe, sortTimeLe, PyTime.leB_eq_true_iff, PyTime.leB_eq_true_iff]
    omega⟩

instance : IsTrans Doc sortTimeLe :=
  ⟨fun a b c hab hbc => by
    rw [sortTimeLe, PyTime.leB_eq_true_iff] at hab hbc ⊢
    omega⟩

/-- The category bucket of one category: filtered records carrying that
normalized category, in retrieval order. -/
def categoryBucket (cat : String) (filtered : List Doc) : List Doc :=
  filtered.filter (fun d => decide (normCategory d = cat))

/-- The bucket after the in-place `sort(key=_sort_time)` (Python's stable
sort, modeled by insertion sort). -/
def sortedBucket (cat : String) (filtered : List Doc) : List Doc :=
  List.insertionSort sortTimeLe (categoryBucket cat filtered)

/-- The contact merge key: digits of the stripped phone if any, else the
stripped contact name if non-empty, else the raw title. -/
def contactKey (d : Doc) : String :=
  let phone := pyStrip d.phone
  let phoneDigits := if phone ≠ "" then digitsOnly phone else ""
  if phoneDigits ≠ "" then phoneDigits
  else
    let contact := pyStrip d.contact
    if contact ≠ "" then contact else d.title

/-- `groups.setdefault(group_key, []).append(d)` on the insertion-ordered
group table. -/
def addToGroups (gs : List (String × List Doc)) (d : Doc) :
    List (String × List Doc) :=
  match gs with
  | [] => [(contactKey d, [d])]
  | (k, items) :: rest =>
    if k = contactKey d then (k, items ++ [d]) :: rest
    else (k, items) :: addToGroups rest d

/-- The contact groups of one bucket, keyed by contact, in first-seen key
order with members in bucket order. -/
def groupsOf (bucket : List Doc) : List (String × List Doc) :=
  bucket.foldl addToGroups []

/-- Python `min` over the `_sort_time`s of a (non-empty) group. -/
def minSortTime : List Doc → PyTime
  | [] => PyTime.sentinel
  | d :: ds =>
    ds.foldl
      (fun acc x => if PyTime.ltB (docSortTime x) acc then docSortTime x else acc)
      (docSortTime d)

/-- Group comparison by earliest member `_sort_time`, the key order of
`sorted(groups.items(), key=...)`. -/
def groupLe (a b : String × List Doc) : Prop :=
  PyTime.leB (minSortTime a.2) (minSortTime b.2) = true

instance : DecidableRel groupLe :=
  fun a b => instDecidableEqBool (PyTime.leB (minSortTime a.2) (minSortTime b.2)) true

instance : IsTotal (String × List Doc) groupLe :=
  ⟨fun a b => by
    rw [groupLe, groupLe, PyTime.leB_eq_true_iff, PyTime.leB_eq_true_iff]
    omega⟩

instance : IsTrans (String × List Doc) groupLe :=
  ⟨fun a b c hab hbc => by
    rw [groupLe, PyTime.leB_eq_true_iff] at hab hbc ⊢
    omega⟩

/-- The groups of one category in render order. -/
def sortedGroups (cat : String) (filtered : List Doc) :
    List (String × List Doc) :=
  List.insertionSort groupLe (groupsOf (sortedBucket cat filtered))

/-- First record of a group (groups are never empty). -/
def firstDoc (items : List Doc) : Doc :=
  items.headD ⟨"", "", "", "", "", "", "", "", "", "", ""⟩

/-- `representative = contact or phone or title` of the group's first
record, stripped; the raw title if the stripped representative is
empty. -/
def displayTitle (items : List Doc) : String :=
  let d := firstDoc items
  let rep := if d.contact ≠ "" then d.contact
    else if d.phone ≠ "" then d.phone else d.title
  let disp := pyStrip rep
  if disp = "" then d.title else disp

/-- `merged_title`: the representative name with the group's event
count. -/
def mergedTitle (items : List Doc) : String :=
  displayTitle items ++ " (" ++ toString items.length ++ " event" ++
    (if items.length ≠ 1 then "s" else "") ++ ")"

/-- One line of the merged group content. -/
def mergedItemLine (it : Doc) : String :=
  let parts : List String :=
    (if pyStrip it.day ≠ "" then [pyStrip it.day] else []) ++
    (if pyStrip it.date ≠ "" then [pyStrip it.date] else []) ++
    (if pyStrip it.time ≠ "" then [pyStrip it.time] else []) ++
    (if pyStrip it.location ≠ "" then ["@" ++ pyStrip it.location] else []) ++
    (if pyStrip it.contribution ≠ "" then ["| Contrib: " ++ pyStrip it.contribution] else [])
  "- **" ++ pyStrip it.title ++ "** " ++ String.intercalate " " parts

/-- The stable reference key of a group:
`urllib.parse.quote(f"{cat}::CONTACT::{group_key}", safe='')`. -/
def safeGroupKey (cat gk : String) : String :=
  quote0 (cat ++ "::CONTACT::" ++ gk)

/-- The merged `Document` stored for a group. -/
def mergedDoc (cat : String) (items : List Doc) : Doc :=
  ⟨String.intercalate "\n" (items.map mergedItemLine),
    mergedTitle items,
    (firstDoc items).day,
    (firstDoc items).date,
    (firstDoc items).time,
    (firstDoc items).location,
    "",
    (firstDoc items).contact,
    (firstDoc items).phone,
    cat,
    ""⟩

/-- The (key, merged document) pair written to `EVENT_DATA_STORE` for one
group. -/
def groupEntry (cat : String) (g : String × List Doc) : String × Doc :=
  (safeGroupKey cat g.1, mergedDoc cat g.2)

/-- All (key, merged document) pairs of one search, in write order. -/
def storePairs (filtered : List Doc) : List (String × Doc) :=
  categoriesList.flatMap fun cat =>
    (sortedGroups cat filtered).map (groupEntry cat)

/-- The (key, rendered title) pairs embedded in the summary lines, in
render order. -/
def renderedRefs (filtered : List Doc) : List (String × String) :=
  categoriesList.flatMap fun cat =>
    (sortedGroups cat filtered).map
      (fun g => (safeGroupKey cat g.1, mergedTitle g.2))

/-- `EVENT_DATA_STORE`, modeled as an association list where the most
recent write for a key wins (Python dict lookup semantics). -/
abbrev EventStore : Type := List (String × Doc)

/-- A dict write. -/
def storeWrite (st : EventStore) (k : String) (d : Doc) : EventStore :=
  (k, d) :: st

/-- A dict lookup: most recent binding of the key. -/
def storeLookup : EventStore → String → Option Doc
  | [], _ => none
  | (k', d) :: rest, k => if k' = k then some d else storeLookup rest k

/-- The store contents after `EVENT_DATA_STORE.clear()` and all the
writes of one search. -/
def newStore (filtered : List Doc) : EventStore :=
  (storePairs filtered).foldl (fun st p => storeWrite st p.1 p.2) ([] : List (String × Doc))

/-- The summary line of one group. -/
def groupLine (cat : String) (g : String × List Doc) : String :=
  "- [**" ++ mergedTitle g.2 ++ "**](#FETCH::" ++ safeGroupKey cat g.1 ++ ")"

/-- The `out_lines` contribution of one category: header plus one line
per group, or nothing when the bucket is empty. -/
def categorySection (cat : String) (filtered : List Doc) : List String :=
  if sortedBucket cat filtered = [] then []
  else ("\n## 📅 **" ++ cat ++ "**") :: (sortedGroups cat filtered).map (groupLine cat)

/-- `out_lines` of one search. -/
def outLines (filtered : List Doc) : List String :=
  categoriesList.flatMap fun cat => categorySection cat filtered

/-- `total_groups` of one search. -/
def totalGroups (filtered : List Doc) : Nat :=
  (categoriesList.map fun cat =>
    if sortedBucket cat filtered = [] then 0
    else (sortedGroups cat filtered).length).sum

/-- The post-retrieval body of `search_auroville_events`: the retrieval
hits, the current datetime and the prior `EVENT_DATA_STORE` contents in,
the new store contents and the returned string out.  The retrieval call
itself (`retriever.invoke`) is the external collaborator of the spec and
is not modeled. -/
def search_auroville_events (docs : List Doc) (now : PyDateTime)
    (prior : EventStore) : EventStore × String :=
  if docs = [] then
    (prior, "I couldn\x27t find any upcoming events matching those criteria.")
  else
    let filtered := filterPast now docs
    if filtered = [] then
      (prior, "I couldn\x27t find any upcoming or ongoing events matching those criteria.")
    else
      let n := totalGroups filtered
      let body := if n = 0 then ["Found 0 event groups."] else outLines filtered
      (newStore filtered,
        "Found " ++ toString n ++ " event group(s). Click a name to see details:\n" ++
          String.intercalate "\n" body)

theorem addToGroups_eq_update (gs : List (String × List Doc)) (d : Doc)
    (hnd : (gs.map Prod.fst).Nodup) (hmem : contactKey d ∈ gs.map Prod.fst) :
    addToGroups gs d =
      gs.map (fun kg => if kg.1 = contactKey d then (kg.1, kg.2 ++ [d]) else kg) := by
  induction gs with
  | nil => cases hmem
  | cons p rest ih =>
    obtain ⟨k, items⟩ := p
    rw [addToGroups, List.map_cons]
    by_cases hk : k = contactKey d
    · rw [if_pos hk]
      simp only [List.map_cons] at hnd
      have hknotin : contactKey d ∉ rest.map Prod.fst := by
        have h1 := (List.nodup_cons.mp hnd).1
        rw [← hk]
        exact h1
      have hrest : rest.map
          (fun kg => if kg.1 = contactKey d then (kg.1, kg.2 ++ [d]) else kg) = rest := by
        have hcong : ∀ kg ∈ rest,
            (if kg.1 = contactKey d then (kg.1, kg.2 ++ [d]) else kg) = id kg := by
          intro kg hkg
          have : kg.1 ≠ contactKey d := by
            intro he
            exact hknotin (he ▸ List.mem_map_of_mem Prod.fst hkg)
          rw [if_neg this]
          rfl
        rw [List.map_congr_left hcong, List.map_id]
      rw [hrest]
      simp [hk]
    · rw [if_neg hk, if_neg hk]
      simp only [List.map_cons] at hnd
      have hmem2 : contactKey d ∈ rest.map Prod.fst := by
        rcases List.mem_map.mp hmem with ⟨kg, hkg, he⟩
        rcases List.mem_cons.mp hkg with rfl | hkg2
        · exact absurd he hk
        · exact he ▸ List.mem_map_of_mem Prod.fst hkg2
      rw [ih (List.nodup_cons.mp hnd).2 hmem2]

theorem addToGroups_eq_append (gs : List (String × List Doc)) (d : Doc)
    (hmem : contactKey d ∉ gs.map Prod.fst) :
    addToGroups gs d = gs ++ [(contactKey d, [d])] := by
  induction gs with
  | nil => rfl
  | cons p rest ih =>
    obtain ⟨k, items⟩ := p
    rw [addToGroups]
    have hk : ¬ k = contactKey d := by
      intro he
      exact hmem (by simp [he])
    rw [if_neg hk, List.cons_append]
    rw [ih (by intro hm; exact hmem (by simp [hm]))]

theorem groupsOf_invariant (B : List Doc) :
    ((groupsOf B).map Prod.fst).Nodup ∧
    (∀ kg ∈ groupsOf B, kg.2 = B.filter (fun x => decide (contactKey x = kg.1))) ∧
    (∀ x ∈ B, contactKey x ∈ (groupsOf B).map Prod.fst) ∧
    (∀ kg ∈ groupsOf B, kg.2 ≠ []) := by
  induction B using List.reverseRecOn with
  | nil =>
    refine ⟨List.nodup_nil, ?_, ?_, ?_⟩
    · intro kg hkg; cases hkg
    · intro x hx; cases hx
    · intro kg hkg; cases hkg
  | append_singleton B d ih =>
    rcases ih with ⟨hnd, hent, hcov, hne⟩
    have hstep : groupsOf (B ++ [d]) = addToGroups (groupsOf B) d := by
      rw [groupsOf, groupsOf, List.foldl_append]
      rfl
    by_cases hmem : contactKey d ∈ (groupsOf B).map Prod.fst
    · rw [hstep, addToGroups_eq_update _ _ hnd hmem]
      have hkeys : (List.map Prod.fst ((groupsOf B).map
          (fun kg => if kg.1 = contactKey d then (kg.1, kg.2 ++ [d]) else kg))) =
          (groupsOf B).map Prod.fst := by
        rw [List.map_map]
        apply List.map_congr_left
        intro kg _
        by_cases h : kg.1 = contactKey d <;> simp [h]
      refine ⟨by rw [hkeys]; exact hnd, ?_, ?_, ?_⟩
      · intro kg hkg
        rcases List.mem_map.mp hkg with ⟨kg0, hkg0, he⟩
        by_cases h : kg0.1 = contactKey d
        · rw [if_pos h] at he
          subst he
          rw [List.filter_append]
          simp only [List.filter_cons, List.filter_nil]
          rw [hent kg0 hkg0]
          rw [if_pos (by simp [h])]
        · rw [if_neg h] at he
          subst he
          rw [List.filter_append]
          simp only [List.filter_cons, List.filter_nil]
          rw [hent kg0 hkg0]
          rw [if_neg (by simp only [decide_eq_true_eq]; exact fun he => h he.symm)]
          simp
      · intro x hx
        rw [hkeys]
        rcases List.mem_append.mp hx with hx | hx
        · exact hcov x hx
        · rcases List.mem_singleton.mp hx with rfl
          exact hmem
      · intro kg hkg
        rcases List.mem_map.mp hkg with ⟨kg0, hkg0, he⟩
        by_cases h : kg0.1 = contactKey d
        · rw [if_pos h] at he
          subst he
          simp
        · rw [if_neg h] at he
          subst he
          exact hne kg0 hkg0
    · rw [hstep, addToGroups_eq_append _ _ hmem]
      have hBnone : B.filter (fun x => decide (contactKey x = contactKey d)) = [] := by
        rw [List.filter_eq_nil_iff]
        intro a ha
        simp only [decide_eq_true_eq]
        intro he
        exact hmem (he ▸ hcov a ha)
      refine ⟨?_, ?_, ?_, ?_⟩
      · rw [List.map_append]
        rw [List.nodup_append]
        refine ⟨hnd, by simp, ?_⟩
        intro a ha hb
        simp only [List.map_cons, List.map_nil, List.mem_singleton] at hb
        subst hb
        exact hmem ha
      · intro kg hkg
        rcases List.mem_append.mp hkg with hkg | hkg
        · have hkne : ¬ contactKey d = kg.1 := by
            intro he
            exact hmem (he ▸ List.mem_map_of_mem Prod.fst hkg)
          rw [List.filter_append]
          simp only [List.filter_cons, List.filter_nil]
          rw [hent kg hkg, if_neg (by simp [hkne])]
          simp
        · rcases List.mem_singleton.mp hkg with rfl
          rw [List.filter_append]
          simp only [List.filter_cons, List.filter_nil]
          rw [if_pos (by simp)]
          show [d] = B.filter (fun x => decide (contactKey x = contactKey d)) ++ [d]
          rw [hBnone]
          rfl
      · intro x hx
        rw [List.map_append]
        rcases List.mem_append.mp hx with hx | hx
        · exact List.mem_append_left _ (hcov x hx)
        · rcases List.mem_singleton.mp hx with rfl
          exact List.mem_append_right _ (by simp)
      · intro kg hkg
        rcases List.mem_append.mp hkg with hkg | hkg
        · exact hne kg hkg
        · rcases List.mem_singleton.mp hkg with rfl
          simp

theorem startsWithL_append_left {needle pre : List Char}
    (h : startsWithL needle pre = true) (rest : List Char) :
    startsWithL needle (pre ++ rest) = true := by
  induction needle generalizing pre with
  | nil => rfl
  | cons a as ih =>
    cases pre with
    | nil => cases h
    | cons b bs =>
      have hh : (decide (a = b) && startsWithL as bs) = true := h
      simp only [Bool.and_eq_true, decide_eq_true_eq] at hh
      show (decide (a = b) && startsWithL as (bs ++ rest)) = true
      simp only [Bool.and_eq_true, decide_eq_true_eq]
      exact ⟨hh.1, ih hh.2⟩

theorem startsWithL_head_ne (a b : Char) (as bs : List Char) (h : ¬ a = b) :
    startsWithL (a :: as) (b :: bs) = false := by
  simp [startsWithL, h]

/-- Is a rendered line the category header line? -/
def isHeaderLine (l : String) : Bool := startsWithL "\n## ".data l.data

theorem groupLine_not_header (cat : String) (g : String × List Doc) :
    isHeaderLine (groupLine cat g) = false := by
  rw [isHeaderLine, groupLine, String.append_assoc, String.append_assoc,
    String.append_assoc, String.data_append]
  exact startsWithL_head_ne _ _ _ _ (by decide)

theorem header_is_header (cat : String) :
    isHeaderLine ("\n## 📅 **" ++ cat ++ "**") = true := by
  rw [isHeaderLine, String.append_assoc, String.data_append]
  exact startsWithL_append_left (by decide) _

theorem categorySection_filter_header (cat : String) (filtered : List Doc) :
    (categorySection cat filtered).filter isHeaderLine =
      if sortedBucket cat filtered = [] then []
      else ["\n## 📅 **" ++ cat ++ "**"] := by
  rw [categorySection]
  split
  · rfl
  · rw [List.filter_cons, if_pos (by rw [header_is_header])]
    have : ((sortedGroups cat filtered).map (groupLine cat)).filter isHeaderLine = [] := by
      rw [List.filter_eq_nil_iff]
      intro l hl
      rcases List.mem_map.mp hl with ⟨g, _, rfl⟩
      rw [groupLine_not_header]
      simp
    rw [this]

/-- C4: the search output lists the category sections in the fixed order
Date-specific, Weekday-based, Appointment/Daily-based (the rendered
header lines are exactly the non-empty categories of that fixed list, in
that order), and within each category bucket the records are sorted by
parsed `_sort_time`: for any record `a` rendered before record `b` of the
same bucket, `parse_time(a.time) <= parse_time(b.time)`; likewise the
rendered groups of a category are sorted by their minimum parsed sort
time. -/
theorem c4_fixed_category_order_and_time_sorted (filtered : List Doc) :
    ((outLines filtered).filter isHeaderLine =
      (categoriesList.filter
        (fun cat => !decide (sortedBucket cat filtered = []))).map
        (fun cat => "\n## 📅 **" ++ cat ++ "**")) ∧
    (∀ cat, (sortedBucket cat filtered).Pairwise sortTimeLe) ∧
    (∀ cat, (sortedGroups cat filtered).Pairwise groupLe) := by
  refine ⟨?_, ?_, ?_⟩
  · show (List.flatMap categoriesList fun cat => categorySection cat filtered).filter isHeaderLine = _
    rw [categoriesList]
    simp only [List.flatMap_cons, List.flatMap_nil, List.append_nil, List.filter_append,
      List.filter_cons, List.filter_nil]
    rw [categorySection_filter_header, categorySection_filter_header,
      categorySection_filter_header]
    by_cases h1 : sortedBucket "Date-specific" filtered = [] <;>
      by_cases h2 : sortedBucket "Weekday-based" filtered = [] <;>
      by_cases h3 : sortedBucket "Appointment/Daily-based" filtered = [] <;>
      simp [h1, h2, h3]
  · intro cat
    exact List.sorted_insertionSort sortTimeLe (categoryBucket cat filtered)
  · intro cat
    exact List.sorted_insertionSort groupLe (groupsOf (sortedBucket cat filtered))

theorem safeGroupKey_decomp (c g : String) :
    safeGroupKey c g = quote0 (c ++ "::CONTACT::") ++ quote0 g :=
  quote0_append (c ++ "::CONTACT::") g

theorem safeGroupKey_injective (cat : String) :
    Function.Injective (safeGroupKey cat) := by
  intro g1 g2 h
  rw [safeGroupKey, safeGroupKey] at h
  have h2 := congrArg String.data (quote0_inj h)
  simp only [String.data_append] at h2
  exact String.ext (List.append_cancel_left h2)

theorem append_ne_of_head_ne {a b : Char} {as bs : List Char} (h : ¬ a = b)
    (x y : List Char) : ¬ ((a :: as) ++ x = (b :: bs) ++ y) := by
  simp [h]

theorem key_ne_DW (g1 g2 : String) :
    ¬ safeGroupKey "Date-specific" g1 = safeGroupKey "Weekday-based" g2 := by
  rw [safeGroupKey_decomp, safeGroupKey_decomp]
  rw [show quote0 ("Date-specific" ++ "::CONTACT::") =
    "Date-specific%3A%3ACONTACT%3A%3A" from by decide]
  rw [show quote0 ("Weekday-based" ++ "::CONTACT::") =
    "Weekday-based%3A%3ACONTACT%3A%3A" from by decide]
  intro h
  have hd := congrArg String.data h
  simp only [String.data_append] at hd
  exact append_ne_of_head_ne (by decide) _ _ hd

theorem key_ne_DA (g1 g2 : String) :
    ¬ safeGroupKey "Date-specific" g1 = safeGroupKey "Appointment/Daily-based" g2 := by
  rw [safeGroupKey_decomp, safeGroupKey_decomp]
  rw [show quote0 ("Date-specific" ++ "::CONTACT::") =
    "Date-specific%3A%3ACONTACT%3A%3A" from by decide]
  rw [show quote0 ("Appointment/Daily-based" ++ "::CONTACT::") =
    "Appointment%2FDaily-based%3A%3ACONTACT%3A%3A" from by decide]
  intro h
  have hd := congrArg String.data h
  simp only [String.data_append] at hd
  exact append_ne_of_head_ne (by decide) _ _ hd

theorem key_ne_WA (g1 g2 : String) :
    ¬ safeGroupKey "Weekday-based" g1 = safeGroupKey "Appointment/Daily-based" g2 := by
  rw [safeGroupKey_decomp, safeGroupKey_decomp]
  rw [show quote0 ("Weekday-based" ++ "::CONTACT::") =
    "Weekday-based%3A%3ACONTACT%3A%3A" from by decide]
  rw [show quote0 ("Appointment/Daily-based" ++ "::CONTACT::") =
    "Appointment%2FDaily-based%3A%3ACONTACT%3A%3A" from by decide]
  intro h
  have hd := congrArg String.data h
  simp only [String.data_append] at hd
  exact append_ne_of_head_ne (by decide) _ _ hd

theorem sortedGroups_keys_nodup (cat : String) (filtered : List Doc) :
    ((sortedGroups cat filtered).map Prod.fst).Nodup := by
  have hperm : ((sortedGroups cat filtered).map Prod.fst).Perm
      ((groupsOf (sortedBucket cat filtered)).map Prod.fst) :=
    (List.perm_insertionSort groupLe _).map Prod.fst
  exact hperm.symm.nodup (groupsOf_invariant (sortedBucket cat filtered)).1

theorem catKeys_nodup (cat : String) (filtered : List Doc) :
    (((sortedGroups cat filtered).map (groupEntry cat)).map Prod.fst).Nodup := by
  rw [List.map_map]
  have : (Prod.fst ∘ groupEntry cat) = (safeGroupKey cat) ∘ Prod.fst := rfl
  rw [this, ← List.map_map]
  exact (sortedGroups_keys_nodup cat filtered).map (safeGroupKey_injective cat)

theorem mem_catKeys_shape (cat : String) (filtered : List Doc) (k : String)
    (hk : k ∈ ((sortedGroups cat filtered).map (groupEntry cat)).map Prod.fst) :
    ∃ g, k = safeGroupKey cat g := by
  rw [List.map_map] at hk
  rcases List.mem_map.mp hk with ⟨g, _, rfl⟩
  exact ⟨g.1, rfl⟩

theorem storePairs_keys_nodup (filtered : List Doc) :
    ((storePairs filtered).map Prod.fst).Nodup := by
  rw [storePairs, categoriesList]
  simp only [List.flatMap_cons, List.flatMap_nil, List.append_nil, List.map_append]
  rw [List.nodup_append]
  refine ⟨catKeys_nodup _ _, ?_, ?_⟩
  · rw [List.nodup_append]
    refine ⟨catKeys_nodup _ _, catKeys_nodup _ _, ?_⟩
    intro a ha hb
    rcases mem_catKeys_shape _ _ _ ha with ⟨g1, rfl⟩
    rcases mem_catKeys_shape _ _ _ hb with ⟨g2, he⟩
    exact key_ne_WA g1 g2 he
  · intro a ha hb
    rcases mem_catKeys_shape _ _ _ ha with ⟨g1, rfl⟩
    rcases List.mem_append.mp hb with hb | hb
    · rcases mem_catKeys_shape _ _ _ hb with ⟨g2, he⟩
      exact key_ne_DW g1 g2 he
    · rcases mem_catKeys_shape _ _ _ hb with ⟨g2, he⟩
      exact key_ne_DA g1 g2 he

theorem foldl_storeWrite_eq_reverse (ps : List (String × Doc)) :
    ∀ acc : EventStore,
      ps.foldl (fun st p => storeWrite st p.1 p.2) acc = ps.reverse ++ acc := by
  induction ps with
  | nil => intro acc; simp
  | cons p rest ih =>
    intro acc
    rw [List.foldl_cons, ih, List.reverse_cons, List.append_assoc]
    rfl

theorem newStore_eq_reverse (filtered : List Doc) :
    newStore filtered = (storePairs filtered).reverse := by
  rw [newStore, foldl_storeWrite_eq_reverse, List.append_nil]

theorem storeLookup_cons (k' : String) (d : Doc) (rest : EventStore) (k : String) :
    storeLookup ((k', d) :: rest) k = if k' = k then some d else storeLookup rest k := rfl

theorem storeLookup_none_of_not_mem {ps : EventStore} {k : String}
    (h : k ∉ ps.map Prod.fst) : storeLookup ps k = none := by
  induction ps with
  | nil => rfl
  | cons p rest ih =>
    obtain ⟨k', d⟩ := p
    rw [storeLookup_cons]
    rw [if_neg (by intro he; exact h (by simp [he]))]
    exact ih fun hm => h (by simp [hm])

theorem storeLookup_append (xs ys : EventStore) (k : String) :
    storeLookup (xs ++ ys) k =
      match storeLookup xs k with
      | some d => some d
      | none => storeLookup ys k := by
  induction xs with
  | nil => rfl
  | cons p rest ih =>
    obtain ⟨k', d⟩ := p
    rw [List.cons_append, storeLookup_cons, storeLookup_cons]
    by_cases he : k' = k
    · rw [if_pos he, if_pos he]
    · rw [if_neg he, if_neg he, ih]

theorem lookup_reverse_of_nodup :
    ∀ (ps : List (String × Doc)), ((ps.map Prod.fst).Nodup) →
      ∀ p ∈ ps, storeLookup ps.reverse p.1 = some p.2 := by
  intro ps
  induction ps with
  | nil => intro _ p hp; cases hp
  | cons q rest ih =>
    intro hnd p hp
    simp only [List.map_cons] at hnd
    rw [List.reverse_cons, storeLookup_append]
    rcases List.mem_cons.mp hp with rfl | hp2
    · have hk : p.1 ∉ (rest.reverse.map Prod.fst) := by
        rw [List.map_reverse]
        simp only [List.mem_reverse]
        exact (List.nodup_cons.mp hnd).1
      rw [storeLookup_none_of_not_mem hk]
      show storeLookup [(p.1, p.2)] p.1 = some p.2
      rw [storeLookup_cons, if_pos rfl]
    · rw [ih (List.nodup_cons.mp hnd).2 p hp2]

theorem renderedRefs_eq_map_storePairs (filtered : List Doc) :
    renderedRefs filtered = (storePairs filtered).map (fun p => (p.1, p.2.title)) := by
  rw [renderedRefs, storePairs, List.map_flatMap]
  congr 1
  funext cat
  rw [List.map_map]
  rfl

theorem categorySection_filter_lines (cat : String) (filtered : List Doc) :
    (categorySection cat filtered).filter (fun l => !(isHeaderLine l)) =
      (sortedGroups cat filtered).map (groupLine cat) := by
  rw [categorySection]
  split
  · rename_i hempty
    rw [show sortedGroups cat filtered = [] from by
      rw [sortedGroups, show groupsOf (sortedBucket cat filtered) = [] from by
        rw [hempty]
        rfl]
      rfl]
    rfl
  · rw [List.filter_cons, if_neg (by rw [header_is_header]; simp)]
    rw [List.filter_eq_self.mpr]
    intro l hl
    rcases List.mem_map.mp hl with ⟨g, _, rfl⟩
    rw [groupLine_not_header]
    rfl

/-- C1: for every full search that renders output (non-empty retrieval
and non-empty filtered set), the resulting `EVENT_DATA_STORE` contents do
not depend on the prior store — the cache is cleared and fully
repopulated, not merged — and every `#FETCH::` reference key embedded in
the rendered summary lines resolves through the cache to the exact merged
record shown, a record whose `title` equals the title rendered in that
line; the non-header summary lines are exactly the rendered (key, title)
references. -/
theorem c1_cache_consistency (docs : List Doc) (now : PyDateTime)
    (prior prior2 : EventStore) (hdocs : ¬ docs = [])
    (hfil : ¬ filterPast now docs = []) :
    ((search_auroville_events docs now prior).1 =
      (search_auroville_events docs now prior2).1) ∧
    ((search_auroville_events docs now prior).1 = newStore (filterPast now docs)) ∧
    (∀ k t, (k, t) ∈ renderedRefs (filterPast now docs) →
      ∃ d, storeLookup (search_auroville_events docs now prior).1 k = some d ∧
        d.title = t) ∧
    ((outLines (filterPast now docs)).filter (fun l => !(isHeaderLine l)) =
      (renderedRefs (filterPast now docs)).map
        (fun p => "- [**" ++ p.2 ++ "**](#FETCH::" ++ p.1 ++ ")")) := by
  have hs : ∀ pr : EventStore, (search_auroville_events docs now pr).1 =
      newStore (filterPast now docs) := by
    intro pr
    rw [search_auroville_events, if_neg hdocs]
    simp only [if_neg hfil]
  refine ⟨(hs prior).trans (hs prior2).symm, hs prior, ?_, ?_⟩
  · intro k t hkt
    rw [hs prior, newStore_eq_reverse]
    rw [renderedRefs_eq_map_storePairs] at hkt
    rcases List.mem_map.mp hkt with ⟨p, hp, he⟩
    have hk : p.1 = k := congrArg Prod.fst he
    have ht : p.2.title = t := congrArg Prod.snd he
    subst hk
    subst ht
    exact ⟨p.2, lookup_reverse_of_nodup _ (storePairs_keys_nodup _) p hp, rfl⟩
  · show (List.flatMap categoriesList fun cat =>
      categorySection cat (filterPast now docs)).filter _ = _
    rw [renderedRefs]
    simp only [categoriesList, List.flatMap_cons, List.flatMap_nil, List.append_nil,
      List.filter_append, List.map_append]
    rw [categorySection_filter_lines, categorySection_filter_lines,
      categorySection_filter_lines, List.map_map, List.map_map, List.map_map]
    rfl

def c1docs : List Doc :=
  [⟨"Talk on permaculture.", "Talk", "", "November 20, 2025", "5 PM", "Hall",
    "", "", "", "", ""⟩]

def c1now : PyDateTime := ⟨⟨2025, 11, 15⟩, ⟨10, 0, 0⟩⟩

def c1prior : EventStore :=
  [("stale", ⟨"", "Old", "", "", "", "", "", "", "", "", ""⟩)]

/-- Witness for C1: a concrete search whose rendered reference key
resolves through the store to the record with the rendered title. -/
theorem c1_witness :
    ∃ d, storeLookup (search_auroville_events c1docs c1now c1prior).1
        "Date-specific%3A%3ACONTACT%3A%3ATalk" = some d ∧
      d.title = "Talk (1 event)" :=
  (c1_cache_consistency c1docs c1now c1prior [] (by decide) (by decide)).2.2.1
    "Date-specific%3A%3ACONTACT%3A%3ATalk" "Talk (1 event)" (by decide)

/-- C10: within each category, the surviving records of the (sorted)
bucket are partitioned into groups by the contact key (digits-only phone,
else contact name, else title): every group is non-empty, consists of
exactly the bucket records with its key, keys are pairwise distinct, and
every bucket record's key has a group; the rendered group sequence is a
permutation of that partition ordered by minimum parsed sort time among
members; and per group exactly one summary line and one cache entry are
produced, keyed `quote('<category>::CONTACT::<group key>')` and labeled
with the representative name and the group's event count. -/
theorem c10_contact_groups (filtered : List Doc) (cat : String) :
    (∀ kg ∈ groupsOf (sortedBucket cat filtered),
      kg.2 = (sortedBucket cat filtered).filter
          (fun x => decide (contactKey x = kg.1)) ∧ kg.2 ≠ []) ∧
    ((groupsOf (sortedBucket cat filtered)).map Prod.fst).Nodup ∧
    (∀ d ∈ sortedBucket cat filtered,
      contactKey d ∈ (groupsOf (sortedBucket cat filtered)).map Prod.fst) ∧
    (sortedGroups cat filtered).Perm (groupsOf (sortedBucket cat filtered)) ∧
    (sortedGroups cat filtered).Pairwise groupLe ∧
    (((sortedGroups cat filtered).map (groupEntry cat)).length =
      (sortedGroups cat filtered).length ∧
     ((sortedGroups cat filtered).map (groupLine cat)).length =
      (sortedGroups cat filtered).length) ∧
    (∀ kg ∈ sortedGroups cat filtered,
      groupEntry cat kg = (quote0 (cat ++ "::CONTACT::" ++ kg.1), mergedDoc cat kg.2) ∧
        (groupEntry cat kg).2.title =
          displayTitle kg.2 ++ " (" ++ toString kg.2.length ++ " event" ++
            (if kg.2.length ≠ 1 then "s" else "") ++ ")") := by
  rcases groupsOf_invariant (sortedBucket cat filtered) with ⟨hnd, hent, hcov, hne⟩
  refine ⟨?_, hnd, hcov, List.perm_insertionSort groupLe _, ?_, ⟨?_, ?_⟩, ?_⟩
  · intro kg hkg
    exact ⟨hent kg hkg, hne kg hkg⟩
  · exact List.sorted_insertionSort groupLe _
  · rw [List.length_map]
  · rw [List.length_map]
  · intro kg _
    exact ⟨rfl, rfl⟩

def c10docs : List Doc :=
  [⟨"", "Yoga", "Monday", "", "7 AM", "", "", "Anna", "+91 98765", "", ""⟩,
   ⟨"", "Dance", "Monday", "", "9 AM", "", "", "Anna", "+91 98765", "", ""⟩]

/-- Witness for C10: the partition part applied to a concrete group of a
concrete bucket. -/
theorem c10_witness :
    (("9198765", c10docs) ∈ groupsOf (sortedBucket "Weekday-based" c10docs)) ∧
      (("9198765", c10docs) : String × List Doc).2 =
        (sortedBucket "Weekday-based" c10docs).filter
          (fun x => decide (contactKey x = "9198765")) ∧
      (("9198765", c10docs) : String × List Doc).2 ≠ [] :=
  ⟨by decide,
    (c10_contact_groups c10docs "Weekday-based").1 ("9198765", c10docs) (by decide)⟩

/-- The WhatsApp deep link of `format_event_card`: empty when the record
has no phone digits, else the click-to-chat markdown built from the
digits-only phone and the URL-encoded templated message. -/
def waLink (title dateStr cleanPhone : String) : String :=
  if cleanPhone = "" then ""
  else
    "\n[**Click to Chat on WhatsApp**](https://wa.me/" ++ cleanPhone ++ "?text=" ++
      quoteSlash ("Hi, I came across your event \x27" ++ title ++
        "\x27 scheduled on " ++ dateStr ++ ". Info?") ++ ")"

/-- The `when` parts of the card: day, date, `@ time`, each when
non-empty. -/
def whenParts (d : Doc) : List String :=
  (if pyStrip d.day ≠ "" then [pyStrip d.day] else []) ++
  (if pyStrip d.date ≠ "" then [pyStrip d.date] else []) ++
  (if pyStrip d.time ≠ "" then ["@ " ++ pyStrip d.time] else [])

/-- The `output` list of `format_event_card` after `filter(None, ...)`:
the lines joined by newlines into the detail card. -/
def cardLines (d : Doc) : List String :=
  (["**Event Name:** " ++ pyStrip d.title] ++
   (if pyStrip d.category ≠ "" then ["**Category:** " ++ pyStrip d.category] else []) ++
   (if whenParts d ≠ [] then ["**When:** " ++ String.intercalate " " (whenParts d)] else []) ++
   (if pyStrip d.location ≠ "" then ["**Where:** " ++ pyStrip d.location] else []) ++
   (if pyStrip d.contribution ≠ "" then
     ["**Contribution:** " ++ pyStrip d.contribution] else []) ++
   (if pyStrip d.contact ≠ "" ∨ digitsOnly (pyStrip d.phone) ≠ "" then
     ["**Contact:** " ++ pyStrip d.contact ++
       waLink (pyStrip d.title) (pyStrip d.date) (digitsOnly (pyStrip d.phone))]
    else []) ++
   ["\n**Description:**"] ++
   [pyStrip d.content] ++
   (if d.poster ≠ "" then ["\n\n![Event Poster](" ++ d.poster ++ ")"] else [])).filter
    (fun s => decide (s ≠ ""))

/-- `format_event_card` from `auroville_agent.py`
(`"\n".join(filter(None, output))`). -/
def format_event_card (d : Doc) : String :=
  String.intercalate "\n" (cardLines d)

def c9doc : Doc :=
  ⟨"", "Silent Walk", "", "", "", "", "", "", "", "", ""⟩

/-- C9 counterexample: for a record with an empty description the card
ends with the bare `**Description:**` label — no placeholder sentence is
emitted. -/
theorem c9_no_placeholder_description :
    format_event_card c9doc = "**Event Name:** Silent Walk\n\n**Description:**" ∧
      (cardLines c9doc).getLast? = some "\n**Description:**" := by decide

/-- The detail card as amended claim C9 words it: labeled fields in fixed
order; Event Name and the Description label always present; Category,
When (omitted only when day, date and time are all empty), Where,
Contribution, Contact (with the WhatsApp deep link whenever a phone
number is present) and Poster omitted when empty; an empty description
contributes no body line (and no placeholder). -/
def claimCardLines (d : Doc) : List String :=
  ["**Event Name:** " ++ pyStrip d.title] ++
  (if pyStrip d.category = "" then [] else ["**Category:** " ++ pyStrip d.category]) ++
  (if pyStrip d.day = "" ∧ pyStrip d.date = "" ∧ pyStrip d.time = "" then []
   else ["**When:** " ++ String.intercalate " " (whenParts d)]) ++
  (if pyStrip d.location = "" then [] else ["**Where:** " ++ pyStrip d.location]) ++
  (if pyStrip d.contribution = "" then []
   else ["**Contribution:** " ++ pyStrip d.contribution]) ++
  (if pyStrip d.contact = "" ∧ digitsOnly (pyStrip d.phone) = "" then []
   else ["**Contact:** " ++ pyStrip d.contact ++
     waLink (pyStrip d.title) (pyStrip d.date) (digitsOnly (pyStrip d.phone))]) ++
  ["\n**Description:**"] ++
  (if pyStrip d.content = "" then [] else [pyStrip d.content]) ++
  (if d.poster = "" then [] else ["\n\n![Event Poster](" ++ d.poster ++ ")"])

theorem string_append_ne_empty {s : String} (t : String) (h : ¬ s.data = []) :
    ¬ (s ++ t) = "" := by
  intro he
  have := congrArg String.data he
  rw [String.data_append] at this
  exact h (List.append_eq_nil.mp this).1

theorem filter_ne_single {s : String} (h : ¬ s = "") :
    List.filter (fun x => decide (x ≠ "")) [s] = [s] := by
  simp [h]

theorem filter_ne_cond (c : Prop) [Decidable c] {s : String} (h : ¬ s = "") :
    List.filter (fun x => decide (x ≠ "")) (if c then [s] else []) =
      if c then [s] else [] := by
  split <;> simp [h]

theorem whenParts_nil_iff (d : Doc) :
    whenParts d = [] ↔
      (pyStrip d.day = "" ∧ pyStrip d.date = "" ∧ pyStrip d.time = "") := by
  rw [whenParts]
  by_cases h1 : pyStrip d.day = "" <;> by_cases h2 : pyStrip d.date = "" <;>
    by_cases h3 : pyStrip d.time = "" <;> simp [h1, h2, h3]

theorem filter_ne_desc (s : String) :
    List.filter (fun x => decide (x ≠ "")) [s] = if s = "" then [] else [s] := by
  by_cases h : s = "" <;> simp [h]

/-- C9 (amended): the detail card consists of labeled fields in the fixed
order Event Name, Category, When, Where, Contribution, Contact,
Description, Poster; Event Name and the Description label are always
present; Category, Where, Contribution and Poster are omitted exactly
when empty; When is omitted exactly when day, date and time are all
empty; Contact is omitted exactly when both the contact name and the
digits-only phone are empty, and includes the WhatsApp deep link built
from the digits-only phone and the templated message whenever a phone
number is present; an empty description contributes no body line and no
placeholder. -/
theorem c9_detail_card_structure (d : Doc) :
    cardLines d = claimCardLines d ∧
    format_event_card d = String.intercalate "\n" (claimCardLines d) ∧
    (cardLines d).head? = some ("**Event Name:** " ++ pyStrip d.title) ∧
    "\n**Description:**" ∈ cardLines d := by
  have hev : ¬ ("**Event Name:** " ++ pyStrip d.title) = "" :=
    string_append_ne_empty _ (by decide)
  have hcat : ¬ ("**Category:** " ++ pyStrip d.category) = "" :=
    string_append_ne_empty _ (by decide)
  have hwhen : ¬ ("**When:** " ++ String.intercalate " " (whenParts d)) = "" :=
    string_append_ne_empty _ (by decide)
  have hwhere : ¬ ("**Where:** " ++ pyStrip d.location) = "" :=
    string_append_ne_empty _ (by decide)
  have hcontrib : ¬ ("**Contribution:** " ++ pyStrip d.contribution) = "" :=
    string_append_ne_empty _ (by decide)
  have hcontact : ¬ ("**Contact:** " ++ pyStrip d.contact ++
      waLink (pyStrip d.title) (pyStrip d.date) (digitsOnly (pyStrip d.phone))) = "" := by
    apply string_append_ne_empty
    rw [String.data_append]
    intro he
    exact absurd (List.append_eq_nil.mp he).1 (by decide)
  have hdesc : ¬ ("\n**Description:**" : String) = "" := by decide
  have hposter : ¬ ("\n\n![Event Poster](" ++ d.poster ++ ")") = "" := by
    apply string_append_ne_empty
    rw [String.data_append]
    intro he
    exact absurd (List.append_eq_nil.mp he).1 (by decide)
  have hmain : cardLines d = claimCardLines d := by
    rw [cardLines, claimCardLines]
    simp only [List.filter_append]
    rw [filter_ne_single hev, filter_ne_cond _ hcat, filter_ne_cond _ hwhen,
      filter_ne_cond _ hwhere, filter_ne_cond _ hcontrib, filter_ne_cond _ hcontact,
      filter_ne_single hdesc, filter_ne_desc, filter_ne_cond _ hposter]
    rw [show (if pyStrip d.category ≠ "" then ["**Category:** " ++ pyStrip d.category] else []) =
      (if pyStrip d.category = "" then [] else ["**Category:** " ++ pyStrip d.category]) from
      ite_not _ _ _]
    rw [show (if whenParts d ≠ [] then
        ["**When:** " ++ String.intercalate " " (whenParts d)] else []) =
      (if whenParts d = [] then []
        else ["**When:** " ++ String.intercalate " " (whenParts d)]) from ite_not _ _ _]
    rw [if_congr (whenParts_nil_iff d) rfl rfl]
    rw [show (if pyStrip d.location ≠ "" then ["**Where:** " ++ pyStrip d.location] else []) =
      (if pyStrip d.location = "" then [] else ["**Where:** " ++ pyStrip d.location]) from
      ite_not _ _ _]
    rw [show (if pyStrip d.contribution ≠ "" then
        ["**Contribution:** " ++ pyStrip d.contribution] else []) =
      (if pyStrip d.contribution = "" then []
        else ["**Contribution:** " ++ pyStrip d.contribution]) from ite_not _ _ _]
    rw [if_congr (show (pyStrip d.contact ≠ "" ∨ digitsOnly (pyStrip d.phone) ≠ "") ↔
        ¬(pyStrip d.contact = "" ∧ digitsOnly (pyStrip d.phone) = "") from by
      rw [not_and_or]) rfl rfl]
    rw [ite_not]
    rw [show (if d.poster ≠ "" then ["\n\n![Event Poster](" ++ d.poster ++ ")"] else []) =
      (if d.poster = "" then [] else ["\n\n![Event Poster](" ++ d.poster ++ ")"]) from
      ite_not _ _ _]
  refine ⟨hmain, by rw [format_event_card, hmain], ?_, ?_⟩
  · rw [hmain, claimCardLines]
    rfl
  · rw [hmain, claimCardLines]
    simp

/-- The integer-keyed variant of the event reference cache used by the
direct-command routing of `app.py` (sequential reference keys). -/
abbrev IntStore : Type := List (Nat × Doc)

/-- Association lookup in the integer-keyed cache. -/
def intStoreLookup : IntStore → Nat → Option Doc
  | [], _ => none
  | (k', d) :: rest, k => if k' = k then some d else intStoreLookup rest k

theorem intStoreLookup_cons (k' : Nat) (d : Doc) (rest : IntStore) (k : Nat) :
    intStoreLookup ((k', d) :: rest) k =
      if k' = k then some d else intStoreLookup rest k := rfl

/-- `max(EVENT_DATA_STORE.keys()) if EVENT_DATA_STORE else 0` from
`app.py`. -/
def intStoreMaxKey (store : IntStore) : Nat :=
  (store.map Prod.fst).foldr max 0

/-- The `SHOW_DAILY_ALIASES` set of `app.py`. -/
def SHOW_DAILY_ALIASES : List String :=
  ["show daily events", "show daily event", "show daily",
   "show daily events please", "show daily events, please",
   "show daily events yes", "show daily events y"]

/-- Modelled from the spec: the cache-population core of
`get_daily_events`, which `app.py` imports and calls but which is missing
from the sources.  Per §4.6 and the append-mode scenario of §8, append
mode assigns the keys `start_number+1, start_number+2, …` to the
daily/appointment records in display order. -/
def populateAppend (start : Nat) : List Doc → List (Nat × Doc)
  | [] => []
  | d :: ds => (start + 1, d) :: populateAppend (start + 1) ds

/-- Modelled from the spec: `get_daily_events(start_number=...)` in
append mode adds its entries to the cache, numbering from the supplied
starting index, and leaves prior entries intact (`clear()` is never
called in the append flow). -/
def get_daily_events (dailyDocs : List Doc) (startNumber : Nat)
    (store : IntStore) : IntStore :=
  store ++ populateAppend startNumber dailyDocs

/-- The "show daily events" branch of `streaming_chat` in `app.py`: a
stripped, lower-cased message matching one of the fixed alias phrases
routes to `get_daily_events` with the current maximum cache key as the
starting offset; any other message does not take this branch. -/
def showDailyRoute (q : String) (dailyDocs : List Doc) (store : IntStore) :
    Option IntStore :=
  if SHOW_DAILY_ALIASES.contains (pyLower (pyStrip q)) then
    some (get_daily_events dailyDocs (intStoreMaxKey store) store)
  else none

theorem populateAppend_keys_ge (start : Nat) :
    ∀ (l : List Doc) (p : Nat × Doc), p ∈ populateAppend start l → start + 1 ≤ p.1 := by
  intro l
  induction l generalizing start with
  | nil => intro p hp; cases hp
  | cons d ds ih =>
    intro p hp
    rcases List.mem_cons.mp hp with rfl | hp2
    · exact Nat.le_refl _
    · exact Nat.le_of_succ_le (ih (start + 1) p hp2)

theorem intStoreLookup_append (xs ys : IntStore) (k : Nat) :
    intStoreLookup (xs ++ ys) k =
      match intStoreLookup xs k with
      | some d => some d
      | none => intStoreLookup ys k := by
  induction xs with
  | nil => rfl
  | cons p rest ih =>
    obtain ⟨k', d⟩ := p
    rw [List.cons_append, intStoreLookup_cons, intStoreLookup_cons]
    by_cases he : k' = k
    · rw [if_pos he, if_pos he]
    · rw [if_neg he, if_neg he, ih]

theorem intStoreLookup_none_of_lt {start k : Nat} (hk : k ≤ start) :
    ∀ l : List Doc, intStoreLookup (populateAppend start l) k = none := by
  intro l
  induction l generalizing start with
  | nil => rfl
  | cons d ds ih =>
    rw [populateAppend, intStoreLookup_cons, if_neg (by omega)]
    exact ih (by omega)

theorem intStoreLookup_populate (l : List Doc) :
    ∀ (start j : Nat), j < l.length →
      intStoreLookup (populateAppend start l) (start + j + 1) = l.get? j := by
  induction l with
  | nil => intro start j hj; cases hj
  | cons d ds ih =>
    intro start j hj
    rw [populateAppend, intStoreLookup_cons]
    cases j with
    | zero => rw [if_pos (by omega)]; rfl
    | succ j =>
      rw [if_neg (by omega)]
      have := ih (start + 1) j (by simpa using hj)
      rw [show start + (j + 1) + 1 = start + 1 + j + 1 from by omega, this]
      rfl

def c8store (d1 d2 d3 d4 d5 : Doc) : IntStore :=
  [(1, d1), (2, d2), (3, d3), (4, d4), (5, d5)]

/-- C8: a request matching one of the fixed case-insensitive "show daily
events" phrases populates the cache in append mode with a starting
offset equal to the current maximum cache key: with keys 1..5 already
present, the route calls `get_daily_events` with starting offset 5, the
new entries receive keys 6, 7, 8, … bound to the daily records in order,
and keys 1..5 keep their previous bindings undisturbed. -/
theorem c8_show_daily_append_mode (d1 d2 d3 d4 d5 : Doc) (daily : List Doc)
    (q : String)
    (hq : SHOW_DAILY_ALIASES.contains (pyLower (pyStrip q)) = true) :
    showDailyRoute q daily (c8store d1 d2 d3 d4 d5) =
      some (get_daily_events daily 5 (c8store d1 d2 d3 d4 d5)) ∧
    (∀ k, k ≤ 5 →
      intStoreLookup (get_daily_events daily 5 (c8store d1 d2 d3 d4 d5)) k =
        intStoreLookup (c8store d1 d2 d3 d4 d5) k) ∧
    (∀ j, j < daily.length →
      intStoreLookup (get_daily_events daily 5 (c8store d1 d2 d3 d4 d5)) (6 + j) =
        daily.get? j) := by
  refine ⟨?_, ?_, ?_⟩
  · rw [showDailyRoute, if_pos hq]
    rfl
  · intro k hk
    rw [get_daily_events, intStoreLookup_append]
    rcases hl : intStoreLookup (c8store d1 d2 d3 d4 d5) k with _ | d
    · rw [intStoreLookup_none_of_lt hk]
    · rfl
  · intro j hj
    rw [get_daily_events, intStoreLookup_append]
    have hnone : intStoreLookup (c8store d1 d2 d3 d4 d5) (6 + j) = none := by
      rw [c8store]
      rw [intStoreLookup_cons, if_neg (by omega), intStoreLookup_cons, if_neg (by omega),
        intStoreLookup_cons, if_neg (by omega), intStoreLookup_cons, if_neg (by omega),
        intStoreLookup_cons, if_neg (by omega)]
      rfl
    rw [hnone]
    have := intStoreLookup_populate daily 5 j hj
    rw [show 5 + j + 1 = 6 + j from by omega] at this
    rw [this]

def c8doc : Doc :=
  ⟨"", "Ear Clinic", "", "", "", "", "", "", "", "", ""⟩

/-- Witness for C8: the routing and append behavior at a concrete
case-insensitive phrase and concrete store. -/
theorem c8_witness :
    showDailyRoute " Show DAILY Events " [c8doc]
        (c8store c8doc c8doc c8doc c8doc c8doc) =
      some (get_daily_events [c8doc] 5 (c8store c8doc c8doc c8doc c8doc c8doc)) ∧
    intStoreLookup (get_daily_events [c8doc] 5
        (c8store c8doc c8doc c8doc c8doc c8doc)) 3 =
      intStoreLookup (c8store c8doc c8doc c8doc c8doc c8doc) 3 ∧
    intStoreLookup (get_daily_events [c8doc] 5
        (c8store c8doc c8doc c8doc c8doc c8doc)) (6 + 0) = [c8doc].get? 0 :=
  have h := c8_show_daily_append_mode c8doc c8doc c8doc c8doc c8doc [c8doc]
    " Show DAILY Events " (by decide)
  ⟨h.1, h.2.1 3 (by omega), h.2.2 0 (by decide)⟩
